import Mathlib

/-!
# Export bookkeeping of `Exporters/Exporters.cpp`

A shallow embedding of the export session (the hash-chained list of already
exported objects), the exporter registry, the export path resolver and the
archive creation routine, followed by the properties proved about them.

Conventions of the embedding:

* a pointer is its address, a `Nat`, and `0` is `NULL`;
* a C `int` is an `Int`; the only place where wrap-around is visible, the hash,
  reduces explicitly modulo the machine word;
* a C string is the list of its characters (without the terminating `NUL`);
  the capacity of the fixed `char` buffers is not modelled, except for the
  explicit length test of `GetExportFileName`;
* a routine that can fail to return (an out-of-range `TArray` access, a walk
  that never ends) returns an `Option`, `none` standing for "no result".
-/

namespace Exporters

/-! ## Data model -/

/-- A C string: its characters, the terminating `NUL` left out. -/
abbrev CStr := List Char

/-- Container (`UnPackage`): the fields `Exporters.cpp` reads. `addr` is the
address of the package, which is its identity. -/
structure UnPackage where
  addr : Nat
  Name : CStr
  Filename : CStr
  Game : Int
deriving DecidableEq

/-- Asset (`UObject`): the fields and accessors `Exporters.cpp` uses. `addr` is
the address of the object; `Package = none` is a `NULL` package pointer;
`ClassName` is `GetClassName()`, `IsA` the type compatibility test,
`UncookedPackageName` is `GetUncookedPackageName()` and
`FullName incObj incCooked` is what `GetFullName(buf, size, incObj, incCooked)`
writes. -/
structure UObject where
  addr : Nat
  Package : Option UnPackage
  PackageIndex : Int
  Name : CStr
  ClassName : CStr
  IsA : CStr → Bool
  UncookedPackageName : CStr
  FullName : Bool → Bool → CStr

/-- Value of the pointer `Obj->Package`. -/
def UObject.PackagePtr (Obj : UObject) : Nat :=
  match Obj.Package with
  | none => 0
  | some p => p.addr

/-- `#define EXPORTED_LIST_HASH_SIZE 4096`. -/
def EXPORTED_LIST_HASH_SIZE : Nat := 4096

/-- Entry of the list of exported objects. -/
structure ExportedObjectEntry where
  Package : Nat
  ExportIndex : Int
  HashNext : Int
deriving DecidableEq

/-- The constructor `ExportedObjectEntry(const UObject* Obj)`. -/
def ExportedObjectEntry.ofObject (Obj : UObject) : ExportedObjectEntry :=
  { Package := Obj.PackagePtr, ExportIndex := Obj.PackageIndex, HashNext := 0 }

/-- Conversion of an `int` to `size_t` (64 bit, two's complement). -/
def toSizeT (x : Int) : Nat := (x % 2 ^ 64).toNat

/-- Result of 32 bit signed arithmetic: the value wrapped into the `int` range. -/
def wrapInt32 (x : Int) : Int := (x + 2 ^ 31) % 2 ^ 32 - 2 ^ 31

/-- The method `ExportedObjectEntry::GetHash`:
`(((size_t)Package >> 3) ^ ExportIndex ^ (ExportIndex << 4)) & (EXPORTED_LIST_HASH_SIZE - 1)`. -/
def ExportedObjectEntry.GetHash (e : ExportedObjectEntry) : Nat :=
  ((e.Package >>> 3) ^^^ toSizeT e.ExportIndex ^^^ toSizeT (wrapInt32 (e.ExportIndex * 16)))
    &&& (EXPORTED_LIST_HASH_SIZE - 1)

/-- The session (`struct ExportContext`). `ObjectHash` is the array of bucket
heads, read at indices below `EXPORTED_LIST_HASH_SIZE` only. -/
structure ExportContext where
  LastExported : Nat
  Objects : List ExportedObjectEntry
  ObjectHash : Nat → Int
  startTime : Nat
  NumSkippedObjects : Int

/-! ## Session operations -/

/-- The method `ExportContext::Reset`; `startTime` is not touched. -/
def ExportContext.Reset (ctx : ExportContext) : ExportContext :=
  { ctx with
    LastExported := 0
    NumSkippedObjects := 0
    Objects := []
    ObjectHash := fun _ => -1 }

/-- The loop of `ItemExists`:
`for (newIndex = ObjectHash[h]; newIndex >= 0; newIndex = expEntry->HashNext)`.
One unit of fuel is spent per evaluation of the loop condition; `none` is an
access outside `Objects` or the end of the fuel. -/
def ExportContext.walk (Objects : List ExportedObjectEntry) (item : ExportedObjectEntry) :
    Nat → Int → Option Bool
  | 0, _ => none
  | fuel + 1, newIndex =>
    if newIndex < 0 then some false
    else
      match Objects[newIndex.toNat]? with
      | none => none
      | some expEntry =>
        if expEntry.Package = item.Package ∧ expEntry.ExportIndex = item.ExportIndex then
          some true
        else
          ExportContext.walk Objects item fuel expEntry.HashNext

/-- The method `ExportContext::ItemExists`. A walk over pairwise different
indices of `Objects` evaluates the loop condition at most `Objects.Num() + 1`
times, so with this fuel `none` is returned only where the code itself does not
return. -/
def ExportContext.ItemExists (ctx : ExportContext) (Obj : UObject) : Option Bool :=
  let item := ExportedObjectEntry.ofObject Obj
  let h := item.GetHash
  ExportContext.walk ctx.Objects item (ctx.Objects.length + 1) (ctx.ObjectHash h)

/-- The method `ExportContext::AddItem`: the returned flag and the new session. -/
def ExportContext.AddItem (ctx : ExportContext) (Obj : UObject) :
    Option (Bool × ExportContext) :=
  match ctx.ItemExists Obj with
  | none => none
  | some true => some (false, ctx)
  | some false =>
    let item := ExportedObjectEntry.ofObject Obj
    let h := item.GetHash
    let newIndex : Int := ctx.Objects.length
    some (true,
      { ctx with
        Objects := ctx.Objects ++ [{ item with HashNext := ctx.ObjectHash h }]
        ObjectHash := fun i => if i = h then newIndex else ctx.ObjectHash i })

/-- A sequence of `AddItem` calls, the returned flags dropped. -/
def ExportContext.addItems : ExportContext → List UObject → Option ExportContext
  | ctx, [] => some ctx
  | ctx, Obj :: rest =>
    match ctx.AddItem Obj with
    | none => none
    | some (_, ctx') => ExportContext.addItems ctx' rest

/-- Two assets have the same identity key: the same package pointer and the
same export index. -/
def SameKey (a b : UObject) : Prop :=
  a.PackagePtr = b.PackagePtr ∧ a.PackageIndex = b.PackageIndex

instance (a b : UObject) : Decidable (SameKey a b) := by
  unfold SameKey; infer_instance

/-- An entry of the list records the key of the asset. -/
def ExportedObjectEntry.Holds (e : ExportedObjectEntry) (Obj : UObject) : Prop :=
  e.Package = Obj.PackagePtr ∧ e.ExportIndex = Obj.PackageIndex

/-- Largest index below `m` whose entry hashes to `h`, or `-1`. -/
def lastBefore (Objects : List ExportedObjectEntry) (h : Nat) : Nat → Int
  | 0 => -1
  | m + 1 =>
    match Objects[m]? with
    | some e => if e.GetHash = h then (m : Int) else lastBefore Objects h m
    | none => lastBefore Objects h m

/-- Some entry among the first `m` records the key of `item`. -/
def foundBelow (Objects : List ExportedObjectEntry) (item : ExportedObjectEntry) (m : Nat) :
    Prop :=
  ∃ j e, j < m ∧ Objects[j]? = some e ∧
    e.Package = item.Package ∧ e.ExportIndex = item.ExportIndex

/-- Shape of the hash chains: every bucket head is the last entry of its
bucket, and every entry links to the previous entry of its bucket. -/
structure ExportContext.Chained (ctx : ExportContext) : Prop where
  head : ∀ h, ctx.ObjectHash h = lastBefore ctx.Objects h ctx.Objects.length
  next : ∀ i e, ctx.Objects[i]? = some e → e.HashNext = lastBefore ctx.Objects e.GetHash i

/-- The walk of `ItemExists` from the bucket head `newIndex` when no entry
matches: the indices visited, in order, and the link that ends the walk; `none`
is an access outside `Objects` or the end of the fuel. -/
def chainFrom (Objects : List ExportedObjectEntry) : Nat → Int → Option (List Nat × Int)
  | 0, _ => none
  | fuel + 1, newIndex =>
    if newIndex < 0 then some ([], newIndex)
    else
      match Objects[newIndex.toNat]? with
      | none => none
      | some expEntry =>
        match chainFrom Objects fuel expEntry.HashNext with
        | none => none
        | some (visited, last) => some (newIndex.toNat :: visited, last)

/-- The indices below `m` whose entry hashes to `h`, largest first. -/
def bucketBelow (Objects : List ExportedObjectEntry) (h : Nat) : Nat → List Nat
  | 0 => []
  | m + 1 =>
    match Objects[m]? with
    | some e => if e.GetHash = h then m :: bucketBelow Objects h m else bucketBelow Objects h m
    | none => bucketBelow Objects h m

/-! ## C string routines -/

/-- The C routine `strnicmp(a, b, n)`, characters compared through `tolower`
(basic latin letters); only the sign of the result is meaningful. -/
def strnicmp : CStr → CStr → Nat → Int
  | _, _, 0 => 0
  | [], [], _ + 1 => 0
  | [], _ :: _, _ + 1 => -1
  | _ :: _, [], _ + 1 => 1
  | a :: as, b :: bs, n + 1 =>
    if a.toLower = b.toLower then strnicmp as bs n
    else if a.toLower < b.toLower then -1 else 1

/-- The C routine `strchr(s, c)`: the part of `s` that starts at the first `c`,
or `none` (`NULL`). -/
def strchr : CStr → Char → Option CStr
  | [], _ => none
  | x :: xs, c => if x = c then some (x :: xs) else strchr xs c

/-- The C routine `strrchr(s, c)`, as the offset of the last `c` in `s`, or
`none` (`NULL`). -/
def strrchr : CStr → Char → Option Nat
  | [], _ => none
  | x :: xs, c =>
    match strrchr xs c with
    | some k => some (k + 1)
    | none => if x = c then some 0 else none

/-- The statements `char* s = strrchr(buf, c); if (s) *s = 0;`. -/
def cutAtLast (buf : CStr) (c : Char) : CStr :=
  match strrchr buf c with
  | some k => buf.take k
  | none => buf

/-! ## Export path -/

/-- The configuration variables read by the exporter, `GExportScripts` and
`GExportLods` (never read in this file) left out, and the two game tags of
`UnPackage.h` it compares against. -/
structure Globals where
  GDontOverwriteFiles : Bool
  GUncook : Bool
  GUseGroups : Bool
  GAME_UE3 : Int
  GAME_UE4_BASE : Int

/-- The statement `if (PackageName[0] == '/') PackageName++;` (line 307). -/
def skipLeadingSlash (PackageName : CStr) : CStr :=
  match PackageName with
  | '/' :: rest => rest
  | other => other

/-- The statements of lines 308-320 of `GetExportPath`: `Content/` at the start
of the package name, or right after its first `/`, is skipped together with
what precedes it. -/
def skipContentRoot (PackageName : CStr) : CStr :=
  if strnicmp PackageName "Content/".toList 8 = 0 then
    PackageName.drop 8
  else
    match strchr PackageName '/' with
    | some s => if strnicmp (s.drop 1) "Content/".toList 8 = 0 then s.drop 9 else PackageName
    | none => PackageName

/-- The test of line 325: the name of the object is the name of the package,
or that name followed by `_`. -/
def nameMatchesPackage (ObjName PkgName : CStr) : Bool :=
  let len := PkgName.length
  strnicmp ObjName PkgName len = 0 && (ObjName[len]? = none || ObjName[len]? = some '_')

/-- Replacement of every `.` by `/` (the loop of lines 355-356). -/
def dotsToSlashes (group : CStr) : CStr :=
  group.map fun c => if c = '.' then '/' else c

/-- The function `GetExportPath` (with `UNREAL4` defined): the returned path
and the value of `BaseExportDir` after the call. -/
def GetExportPath (g : Globals) (BaseExportDir : CStr) (Obj : UObject) : CStr × CStr :=
  let BaseExportDir := if BaseExportDir = [] then ".".toList else BaseExportDir
  let ue4 : Option UnPackage := match Obj.Package with
    | some p => if p.Game ≥ g.GAME_UE4_BASE then some p else none
    | none => none
  match ue4 with
  | some p =>
    let PackageName := skipContentRoot (skipLeadingSlash p.Filename)
    let buf := BaseExportDir ++ "/".toList ++ PackageName
    if nameMatchesPackage Obj.Name p.Name then
      (cutAtLast buf '/', BaseExportDir)
    else
      (cutAtLast buf '.', BaseExportDir)
  | none =>
    let PackageName : CStr := match Obj.Package with
      | some p => if g.GUncook then Obj.UncookedPackageName else p.Name
      | none => "None".toList
    let group : CStr :=
      if g.GUseGroups then dotsToSlashes (Obj.FullName false (!g.GUncook))
      else Obj.ClassName
    (BaseExportDir ++ "/".toList ++ PackageName ++ (if group = [] then [] else "/".toList)
      ++ group, BaseExportDir)

/-- The function `GetExportFileName`; `name` is the text the format string and
its arguments produce, `none` is the `NULL` returned when that text does not
fit `fmtBuf`. -/
def GetExportFileName (g : Globals) (BaseExportDir : CStr) (Obj : UObject) (name : CStr) :
    Option CStr × CStr :=
  if name.length ≥ 256 - 1 then (none, BaseExportDir)
  else
    let r := GetExportPath g BaseExportDir Obj
    (some (r.1 ++ "/".toList ++ name), r.2)

/-! ## File system, log and the state of the exporter -/

/-- Modelled from the spec: the file system of section 6, which is not part of
this file. `files` are the paths that exist, `locked` the paths that cannot be
opened for writing, `madeDirs` and `opened` record the calls of
`appMakeDirectoryForFile` and the `FFileWriter` objects created, latest first. -/
structure FileSystem where
  files : List CStr
  locked : List CStr
  madeDirs : List CStr
  opened : List CStr

/-- Modelled from the spec: `appFileExists`. -/
def FileSystem.appFileExists (fs : FileSystem) (filename : CStr) : Bool :=
  decide (filename ∈ fs.files)

/-- Modelled from the spec: `appMakeDirectoryForFile`. -/
def FileSystem.appMakeDirectoryForFile (fs : FileSystem) (filename : CStr) : FileSystem :=
  { fs with madeDirs := filename :: fs.madeDirs }

/-- Modelled from the spec: construction of an `FFileWriter` on `filename`;
the flag is `IsOpen()`. An opened file exists afterwards. -/
def FileSystem.openWriter (fs : FileSystem) (filename : CStr) : Bool × FileSystem :=
  if filename ∈ fs.locked then (false, { fs with opened := filename :: fs.opened })
  else (true, { fs with opened := filename :: fs.opened, files := filename :: fs.files })

/-- A line written by `appPrintf`, by format string, with its arguments. -/
inductive LogLine where
  | exporting (cls name filename : CStr)
  | fileExists (filename : CStr)
  | duplicateName (name cls uniqueName : CStr)
  | errorCreating (filename : CStr)
  | summary (exported total : Int) (elapsed : Nat)
deriving DecidableEq

/-- The archive handed to the exporter. -/
structure FArchive where
  filename : CStr
  FileOptions : Nat
  ArVer : Nat
deriving DecidableEq

/-- The state the exporter works on: the session `ctx`, `BaseExportDir`, the
items of the static `ExportedNames` of `ExportObject` (name and count, in
order), the file system and the lines printed, latest first. -/
structure World where
  ctx : ExportContext
  BaseExportDir : CStr
  ExportedNames : List (CStr × Int)
  fs : FileSystem
  log : List LogLine

/-- The function `RegisterProcessedObject`. -/
def RegisterProcessedObject (ctx : ExportContext) (Obj : UObject) :
    Option (Bool × ExportContext) :=
  if Obj.Package = none ∨ Obj.PackageIndex < 0 then some (true, ctx)
  else ctx.AddItem Obj

/-- The function `IsObjectExported`. -/
def IsObjectExported (ctx : ExportContext) (Obj : UObject) : Option Bool :=
  ctx.ItemExists Obj

/-- The part of `CreateExportArchive` after the check of `LastExported`
(lines 424-458). -/
def CreateExportArchive.finish (g : Globals) (w : World) (Obj : UObject) (FileOptions : Nat)
    (name : CStr) (bNewObject : Bool) : Option FArchive × World :=
  let r := GetExportFileName g w.BaseExportDir Obj name
  let w := { w with BaseExportDir := r.2 }
  match r.1 with
  | none => (none, w)
  | some filename =>
    let w :=
      if bNewObject then
        if (g.GDontOverwriteFiles && w.fs.appFileExists filename) = false then
          { w with log := LogLine.exporting Obj.ClassName Obj.Name filename :: w.log }
        else
          { w with
            log := LogLine.fileExists filename :: w.log
            ctx := { w.ctx with NumSkippedObjects := w.ctx.NumSkippedObjects + 1 } }
      else w
    let o := (w.fs.appMakeDirectoryForFile filename).openWriter filename
    if o.1 then
      (some { filename := filename, FileOptions := FileOptions, ArVer := 128 },
        { w with fs := o.2 })
    else
      (none, { w with fs := o.2, log := LogLine.errorCreating filename :: w.log })

/-- The function `CreateExportArchive`; `name` is the text produced by the
format string and its arguments. The outer `none` is a call that does not
return, the inner one the `NULL` archive. -/
def CreateExportArchive (g : Globals) (w : World) (Obj : UObject) (FileOptions : Nat)
    (name : CStr) : Option (Option FArchive × World) :=
  if w.ctx.LastExported ≠ Obj.addr then
    match RegisterProcessedObject w.ctx Obj with
    | none => none
    | some (false, ctx') => some (none, { w with ctx := ctx' })
    | some (true, ctx') =>
      some (CreateExportArchive.finish g
        { w with ctx := { ctx' with LastExported := Obj.addr } } Obj FileOptions name true)
  else
    some (CreateExportArchive.finish g w Obj FileOptions name false)

/-- A request for an archive: the arguments of one `CreateExportArchive` call. -/
structure ArchiveCall where
  Obj : UObject
  FileOptions : Nat
  name : CStr

/-- A sequence of `CreateExportArchive` calls, the returned archives dropped. -/
def runArchiveCalls (g : Globals) : World → List ArchiveCall → Option World
  | w, [] => some w
  | w, c :: rest =>
    match CreateExportArchive g w c.Obj c.FileOptions c.name with
    | none => none
    | some (_, w') => runArchiveCalls g w' rest

/-- The package pointer of the asset, when not `NULL`, is a non-zero address. -/
def UObject.ValidPtr (Obj : UObject) : Prop :=
  ∀ p, Obj.Package = some p → p.addr ≠ 0

/-- Every entry of the list holds a non-null package and a non-negative index. -/
def ExportContext.Keyed (ctx : ExportContext) : Prop :=
  ∀ e ∈ ctx.Objects, e.Package ≠ 0 ∧ 0 ≤ e.ExportIndex

/-! ## Exporter registry and `ExportObject` -/

/-- An exporter function: the asset it is called on and its effect on the state. -/
abbrev ExporterFunc_t := UObject → World → World

/-- A registration (`struct CExporterInfo`). -/
structure CExporterInfo where
  ClassName : CStr
  Func : ExporterFunc_t

/-- `#define MAX_EXPORTERS 20`. -/
def MAX_EXPORTERS : Nat := 20

/-- The function `RegisterExporter` on the table `exporters`; `none` is the
failed `assert`. -/
def RegisterExporter (exporters : List CExporterInfo) (ClassName : CStr)
    (Func : ExporterFunc_t) : Option (List CExporterInfo) :=
  if exporters.length < MAX_EXPORTERS then
    some (exporters ++ [{ ClassName := ClassName, Func := Func }])
  else none

/-- The method `UniqueNameList::RegisterName`: the returned count and the items
after the call. The comparison `V.Name == Name` of an `FString` with a C string
is equality of the two texts. -/
def RegisterName : List (CStr × Int) → CStr → Int × List (CStr × Int)
  | [], Name => (1, [(Name, 1)])
  | V :: rest, Name =>
    if V.1 = Name then (V.2 + 1, (V.1, V.2 + 1) :: rest)
    else
      let r := RegisterName rest Name
      (r.1, V :: r.2)

/-- What a call of `ExportObject` does: the returned flag, the state after the
call, the asset as the call leaves it, and the calls of exporter functions it
made itself, each with the index of the registration and the asset as passed. -/
structure ExportResult where
  handled : Bool
  world : World
  Obj : Option UObject
  invoked : List (Nat × UObject)

/-- The body of the loop of `ExportObject` for a registration whose class
matches (lines 232-264). `passed` is the asset while the exporter function
runs, under the name `uniqueName` after a rename; `restored` is the asset after
the statement `if (OriginalName) Obj->Name = OriginalName`. -/
def ExportObject.body (g : Globals) (bAddUniqueSuffix : Bool) (Obj : UObject) (w : World)
    (i : Nat) (Info : CExporterInfo) : ExportResult :=
  let r := GetExportPath g w.BaseExportDir Obj
  let ExportPath := r.1
  let w := { w with BaseExportDir := r.2 }
  let ClassName := Obj.ClassName
  let uniqueName := ExportPath ++ "/".toList ++ Obj.Name ++ ".".toList ++ ClassName
  let renamed : World × Option CStr :=
    if bAddUniqueSuffix then
      let reg := RegisterName w.ExportedNames uniqueName
      let uniqueIdx := reg.1
      let w := { w with ExportedNames := reg.2 }
      if uniqueIdx ≥ 2 then
        let uniqueName := Obj.Name ++ "_".toList ++ (toString uniqueIdx).toList
        ({ w with log := LogLine.duplicateName Obj.Name ClassName uniqueName :: w.log },
          some uniqueName)
      else (w, none)
    else (w, none)
  let w := renamed.1
  let OriginalName : Option CStr := match renamed.2 with
    | some _ => some Obj.Name
    | none => none
  let passed : UObject := match renamed.2 with
    | some uniqueName => { Obj with Name := uniqueName }
    | none => Obj
  let saveLastExported := w.ctx.LastExported
  let w := Info.Func passed w
  let w := { w with ctx := { w.ctx with LastExported := saveLastExported } }
  let restored : UObject := match OriginalName with
    | some name => { passed with Name := name }
    | none => passed
  { handled := true, world := w, Obj := some restored, invoked := [(i, passed)] }

/-- The loop of `ExportObject` over the registrations from index `i` on. -/
def ExportObject.loop (g : Globals) (bAddUniqueSuffix : Bool) (Obj : UObject) (w : World) :
    Nat → List CExporterInfo → ExportResult
  | _, [] => { handled := false, world := w, Obj := some Obj, invoked := [] }
  | i, Info :: rest =>
    if Obj.IsA Info.ClassName then ExportObject.body g bAddUniqueSuffix Obj w i Info
    else ExportObject.loop g bAddUniqueSuffix Obj w (i + 1) rest

/-- The function `ExportObject` on the table `exporters`; `none` is a `NULL`
asset. -/
def ExportObject (g : Globals) (exporters : List CExporterInfo) (Obj : Option UObject)
    (w : World) : ExportResult :=
  match Obj with
  | none => { handled := false, world := w, Obj := none, invoked := [] }
  | some Obj =>
    if strnicmp Obj.Name "Default__".toList 9 = 0 then
      { handled := true, world := w, Obj := some Obj, invoked := [] }
    else
      let bAddUniqueSuffix : Bool := match Obj.Package with
        | some p =>
          g.GUncook && decide (p.Game ≥ g.GAME_UE3) && decide (p.Game < g.GAME_UE4_BASE)
        | none => false
      ExportObject.loop g bAddUniqueSuffix Obj w 0 exporters

/-- The function `BeginExport`; `now` is the value of `appMilliseconds()`. -/
def BeginExport (now : Nat) (w : World) : World :=
  { w with ctx := { w.ctx with startTime := now } }

/-- The function `EndExport`; `now` is the value of `appMilliseconds()`, the
elapsed time is the difference of two `unsigned long` (64 bit), `none` is the
failed `assert(ctx.startTime)`. -/
def EndExport (profile : Bool) (now : Nat) (w : World) : Option World :=
  if profile then
    if w.ctx.startTime = 0 then none
    else
      let elapsedTime := (now + 2 ^ 64 - w.ctx.startTime) % 2 ^ 64
      let w := { w with
        log := LogLine.summary ((w.ctx.Objects.length : Int) - w.ctx.NumSkippedObjects)
          (w.ctx.Objects.length : Int) elapsedTime :: w.log }
      some { w with ctx := ExportContext.Reset { w.ctx with startTime := 0 } }
  else
    some { w with ctx := ExportContext.Reset { w.ctx with startTime := 0 } }

/-- A sequence of `ExportObject` calls on non-null assets: the calls of exporter
functions made, in order, and the state after the last call. -/
def runExports (g : Globals) (exporters : List CExporterInfo) :
    World → List UObject → List (Nat × UObject) × World
  | w, [] => ([], w)
  | w, Obj :: rest =>
    let r := ExportObject g exporters (some Obj) w
    let rr := runExports g exporters r.world rest
    (r.invoked ++ rr.1, rr.2)

/-- The count stored for `Name` in the items of a `UniqueNameList`, `0` when
there is no item of that name. -/
def countOf : List (CStr × Int) → CStr → Int
  | [], _ => 0
  | V :: rest, Name => if V.1 = Name then V.2 else countOf rest Name

/-- The candidate identity of an asset: the text `ExportObject` registers,
`"%s/%s.%s"` of export path, name and class name. -/
def candidateName (g : Globals) (BaseExportDir : CStr) (Obj : UObject) : CStr :=
  (GetExportPath g BaseExportDir Obj).1 ++ "/".toList ++ Obj.Name ++ ".".toList ++ Obj.ClassName

/-- The name an asset is exported under at its `k`-th registration: its own
name at the first, the name with `_` and `k` from the second on. -/
def suffixedName (Name : CStr) (k : Int) : CStr :=
  if k ≥ 2 then Name ++ "_".toList ++ (toString k).toList else Name

/-- The disambiguation of `ExportObject` applies to the asset: `GUncook` is on
and the asset has a package of a generation from `GAME_UE3` up to, not
including, `GAME_UE4_BASE`. -/
def ActivePolicy (g : Globals) (Obj : UObject) : Prop :=
  g.GUncook = true ∧ ∃ p, Obj.Package = some p ∧ g.GAME_UE3 ≤ p.Game ∧ p.Game < g.GAME_UE4_BASE

/-- The value `ExportObject` gives to `bAddUniqueSuffix` for the asset
(lines 221-225). -/
def addUniqueSuffix (g : Globals) (Obj : UObject) : Bool :=
  match Obj.Package with
  | some p => g.GUncook && decide (p.Game ≥ g.GAME_UE3) && decide (p.Game < g.GAME_UE4_BASE)
  | none => false

/-! ## Exporter functions that call back into this file -/

/-- Modelled from the spec: what a handler does during one call, as the sequence
of its calls back into this file ("re-entrant export calls triggered by a
handler (an asset exporting another referenced asset)"; lines 255-257: an
exporter "will call another ExportObject function then continue exporting").
The calls are requests of archives for the asset the handler was called on, the
file name formed from that asset, and `ExportObject` calls on other assets, each
with what the exporter function run by that call does in turn. -/
inductive Script where
  | done : Script
  | archive (FileOptions : Nat) (name : UObject → CStr) (next : Script) : Script
  | export (Obj : UObject) (body : Script) (next : Script) : Script

/-- The table of exporters with one registration per class of `classes`, in
order, each with the exporter function `Func`. -/
def exportersOf (classes : List CStr) (Func : ExporterFunc_t) : List CExporterInfo :=
  classes.map fun c => { ClassName := c, Func := Func }

/-- Modelled from the spec: the exporter function that makes the calls of the
script, on the table of exporters registered for `classes`. A request of an
archive that does not return is passed over; there is none in a run that starts
in a session with well-formed chains (`Script_run_chained`). -/
def Script.run (g : Globals) (classes : List CStr) : Script → ExporterFunc_t
  | .done => fun _ w => w
  | .archive FileOptions name next => fun self w =>
    match CreateExportArchive g w self FileOptions (name self) with
    | some (_, w') => Script.run g classes next self w'
    | none => Script.run g classes next self w
  | .export Obj body next => fun self w =>
    Script.run g classes next self
      (ExportObject g (exportersOf classes (Script.run g classes body)) (some Obj) w).world

/-- One call of `ExportObject` that ran an exporter function: the asset the call
was made on, the export path and the flag `bAddUniqueSuffix` of the call, and
the asset as the exporter function got it. -/
structure CallRecord where
  Obj : UObject
  ExportPath : CStr
  bAddUniqueSuffix : Bool
  passed : UObject

/-- The candidate identity of the call: the text `"%s/%s.%s"` of export path,
name and class name that the call composes (line 239). -/
def CallRecord.identity (c : CallRecord) : CStr :=
  c.ExportPath ++ "/".toList ++ c.Obj.Name ++ ".".toList ++ c.Obj.ClassName

/-- The `ExportObject` calls that ran an exporter function while the script
runs, those made by the exporter functions themselves included, in the order in
which the calls start. The exporter function of a call starts in the state that
an exporter function without effect would leave. -/
def Script.calls (g : Globals) (classes : List CStr) :
    Script → UObject → World → List CallRecord
  | .done => fun _ _ => []
  | .archive FileOptions name next => fun self w =>
    match CreateExportArchive g w self FileOptions (name self) with
    | some (_, w') => Script.calls g classes next self w'
    | none => Script.calls g classes next self w
  | .export Obj body next => fun self w =>
    (match (ExportObject g (exportersOf classes (Script.run g classes body))
        (some Obj) w).invoked with
      | [] => []
      | x :: _ =>
        { Obj := Obj, ExportPath := (GetExportPath g w.BaseExportDir Obj).1,
          bAddUniqueSuffix := addUniqueSuffix g Obj, passed := x.2 } ::
        Script.calls g classes body x.2
          (ExportObject g (exportersOf classes fun _ w => w) (some Obj) w).world) ++
    Script.calls g classes next self
      (ExportObject g (exportersOf classes (Script.run g classes body)) (some Obj) w).world

/-- The script of a run of `ExportObject` calls on the assets of the list, in
order, each with what its exporter function does. -/
def Script.ofCalls : List (UObject × Script) → Script
  | [] => .done
  | x :: rest => .export x.1 x.2 (Script.ofCalls rest)

/-! ## Sample data -/

/-- A package at the given address. -/
def samplePackage (addr : Nat) (name file : String) (game : Int) : UnPackage :=
  { addr := addr, Name := name.toList, Filename := file.toList, Game := game }

/-- An asset whose type is compatible with its own class name only. -/
def sampleObject (addr : Nat) (pkg : Option UnPackage) (index : Int) (name cls : String) :
    UObject :=
  { addr := addr
    Package := pkg
    PackageIndex := index
    Name := name.toList
    ClassName := cls.toList
    IsA := fun c => c == cls.toList
    UncookedPackageName := match pkg with
      | none => []
      | some p => p.Name
    FullName := fun _ _ => [] }

/-- A session as the constructor of `ExportContext` leaves it. -/
def freshContext : ExportContext :=
  ExportContext.Reset
    { LastExported := 0, Objects := [], ObjectHash := fun _ => 0, startTime := 0,
      NumSkippedObjects := 0 }

/-- Two packages whose addresses differ by `8 * 4096`: equal hash at equal index. -/
def pkgA : UnPackage := samplePackage 8 "A" "A.upk" 0

def pkgB : UnPackage := samplePackage 32776 "B" "B.upk" 0

def objA : UObject := sampleObject 1000 (some pkgA) 0 "Mesh" "StaticMesh"

def objB : UObject := sampleObject 2000 (some pkgB) 0 "Mesh" "StaticMesh"

def objC : UObject := sampleObject 3000 (some pkgA) 5 "Skin" "Texture"

/-- The session after `objA` alone was added to `freshContext`. -/
def sessionWithA : ExportContext :=
  { freshContext with
    Objects := [{ Package := 8, ExportIndex := 0, HashNext := -1 }]
    ObjectHash := fun i => if i = 1 then 0 else -1 }

/-- Sample settings: every policy off, sample values for the two game tags. -/
def sampleGlobals : Globals :=
  { GDontOverwriteFiles := false, GUncook := false, GUseGroups := false,
    GAME_UE3 := 1000, GAME_UE4_BASE := 2000 }

/-- An empty file system. -/
def emptyFs : FileSystem := { files := [], locked := [], madeDirs := [], opened := [] }

/-- A state at the start of a run, exporting to `/out`. -/
def world0 : World :=
  { ctx := freshContext, BaseExportDir := "/out".toList, ExportedNames := [], fs := emptyFs,
    log := [] }

/-- The state `world0` with `objA` already recorded in the session. -/
def worldWithA : World := { world0 with ctx := sessionWithA }

/-- An asset without package (generated at run time), at index 3. -/
def objGenerated : UObject := sampleObject 4000 none 3 "Flags" "MaterialWithPolyFlags"

/-- A sample exporter function: it asks for one archive, named after the asset
with the given extension. -/
def archiveExporter (ext : String) : ExporterFunc_t := fun Obj w =>
  match CreateExportArchive sampleGlobals w Obj 0 (Obj.Name ++ ext.toList) with
  | some (_, w') => w'
  | none => w

/-- A skeletal mesh: its type is compatible with `SkeletalMesh` and with the
ancestor `Object`. -/
def objSkel : UObject :=
  { sampleObject 5000 (some pkgA) 7 "Hero" "SkeletalMesh" with
    IsA := fun c => c == "SkeletalMesh".toList || c == "Object".toList }

/-- Registration of the exporter of skeletal meshes. -/
def infoSkel : CExporterInfo :=
  { ClassName := "SkeletalMesh".toList, Func := archiveExporter ".psk" }

/-- Registration of the exporter of all objects. -/
def infoObject : CExporterInfo :=
  { ClassName := "Object".toList, Func := archiveExporter ".txt" }

/-- A package of an earlier generation named `Foo`. -/
def pkgFoo : UnPackage := samplePackage 64 "Foo" "Foo.upk" 500

/-- An asset of type `Mesh` in `pkgFoo`. -/
def objFoo : UObject := sampleObject 6000 (some pkgFoo) 1 "Rock" "Mesh"

/-- The asset `objFoo` with a full name accessor that returns the given text. -/
def objFooNamed (fullName : String) : UObject :=
  { objFoo with FullName := fun _ _ => fullName.toList }

/-- Sample settings with grouping enabled. -/
def groupGlobals : Globals := { sampleGlobals with GUseGroups := true }

/-- A package of a later generation at `/Game/Content/Meshes/Hero`. -/
def pkgHero : UnPackage := samplePackage 128 "Hero" "/Game/Content/Meshes/Hero" 3000

/-- The asset of `pkgHero` that carries the name of the package. -/
def objHero : UObject := sampleObject 7000 (some pkgHero) 1 "Hero" "SkeletalMesh"

/-- An asset of `pkgHero` named after the package with a suffix. -/
def objHeroLod : UObject := sampleObject 7100 (some pkgHero) 2 "Hero_LOD1" "SkeletalMesh"

/-- An asset of `pkgHero` whose name is not that of the package. -/
def objOther : UObject := sampleObject 7200 (some pkgHero) 3 "Other" "Texture2D"

/-- Sample settings with `GUncook` on. -/
def uncookGlobals : Globals := { sampleGlobals with GUncook := true }

/-- Sample settings with `GDontOverwriteFiles` on. -/
def keepGlobals : Globals := { sampleGlobals with GDontOverwriteFiles := true }

/-- A texture of the given name in a package of the middle generation at the
given address, cooked from the package `Shared`. -/
def sampleTexture (addr : Nat) (name : String) : UObject :=
  { sampleObject (addr + 1) (some (samplePackage addr "Map" "Map.upk" 1500)) 4 name "Texture2D"
    with UncookedPackageName := "Shared".toList }

/-- An exporter function that only prints the name of the asset it is given. -/
def noteExporter : ExporterFunc_t := fun Obj w =>
  { w with log := LogLine.exporting Obj.ClassName Obj.Name [] :: w.log }

/-- A table with `noteExporter` registered for `Texture2D`. -/
def textureExporters : List CExporterInfo :=
  [{ ClassName := "Texture2D".toList, Func := noteExporter }]

/-- The classes with a registered exporter in the sample runs of scripts. -/
def sampleClasses : List CStr := ["Texture2D".toList, "Material".toList]

/-- What the sample exporter of textures does: it asks for one archive, named
after the asset with the extension `.tga`. -/
def textureScript : Script :=
  .archive 0 (fun Obj => Obj.Name ++ ".tga".toList) .done

/-- A run of three `ExportObject` calls on textures named `Tex`, `Tex` and
`Tex_2` of three packages. -/
def collidingRun : Script :=
  Script.ofCalls
    [(sampleTexture 512 "Tex", textureScript), (sampleTexture 1024 "Tex", textureScript),
      (sampleTexture 2048 "Tex_2", textureScript)]

/-- A file system in which the destination of `objGenerated` exists already. -/
def fsWithFlags : FileSystem :=
  { emptyFs with files := ["/out/None/MaterialWithPolyFlags/Flags.mat".toList] }

/-- The state `world0` with the file system `fsWithFlags`. -/
def worldFlags : World := { world0 with fs := fsWithFlags }

/-- The request of `objGenerated` for the archive `Flags.mat`. -/
def callFlags : ArchiveCall :=
  { Obj := objGenerated, FileOptions := 0, name := "Flags.mat".toList }

/-! ## Properties of the session -/

theorem GetHash_eq_of_key {e item : ExportedObjectEntry}
    (h : e.Package = item.Package ∧ e.ExportIndex = item.ExportIndex) :
    e.GetHash = item.GetHash := by
  unfold ExportedObjectEntry.GetHash
  rw [h.1, h.2]

theorem lastBefore_append (Objects l : List ExportedObjectEntry) (h : Nat) :
    ∀ m, m ≤ Objects.length → lastBefore (Objects ++ l) h m = lastBefore Objects h m
  | 0, _ => rfl
  | m + 1, hm => by
    have hlt : m < Objects.length := hm
    simp only [lastBefore, List.getElem?_append_left hlt]
    rw [lastBefore_append Objects l h m (Nat.le_of_lt hlt)]

theorem lastBefore_bounds (Objects : List ExportedObjectEntry) (h : Nat) :
    ∀ m, -1 ≤ lastBefore Objects h m ∧ lastBefore Objects h m < (m : Int)
  | 0 => by simp [lastBefore]
  | m + 1 => by
    have ih := lastBefore_bounds Objects h m
    simp only [lastBefore]
    split
    · split
      · constructor <;> omega
      · constructor <;> omega
    · constructor <;> omega

theorem walk_lastBefore (Objects : List ExportedObjectEntry) (item : ExportedObjectEntry)
    (hnext : ∀ i e, Objects[i]? = some e → e.HashNext = lastBefore Objects e.GetHash i) :
    ∀ m, m ≤ Objects.length → ∀ fuel, m < fuel →
      ∃ b, ExportContext.walk Objects item fuel (lastBefore Objects item.GetHash m) = some b ∧
        (b = true ↔ foundBelow Objects item m)
  | 0, _, fuel, hf => by
    obtain ⟨f, rfl⟩ : ∃ f, fuel = f + 1 := ⟨fuel - 1, by omega⟩
    refine ⟨false, by simp [lastBefore, ExportContext.walk], ?_⟩
    simp [foundBelow]
  | m + 1, hm, fuel, hf => by
    obtain ⟨f, rfl⟩ : ∃ f, fuel = f + 1 := ⟨fuel - 1, by omega⟩
    have hlt : m < Objects.length := hm
    have hget : Objects[m]? = some Objects[m] := List.getElem?_eq_getElem hlt
    have ih := walk_lastBefore Objects item hnext m (Nat.le_of_lt hlt)
    have step : foundBelow Objects item (m + 1) ↔
        ((Objects[m].Package = item.Package ∧ Objects[m].ExportIndex = item.ExportIndex) ∨
          foundBelow Objects item m) := by
      constructor
      · rintro ⟨j, e, hj, he, hk⟩
        rcases Nat.lt_succ_iff_lt_or_eq.mp hj with hj' | rfl
        · exact Or.inr ⟨j, e, hj', he, hk⟩
        · rw [hget] at he
          cases he
          exact Or.inl hk
      · rintro (hk | ⟨j, e, hj, he, hk⟩)
        · exact ⟨m, Objects[m], Nat.lt_succ_self m, hget, hk⟩
        · exact ⟨j, e, Nat.lt_succ_of_lt hj, he, hk⟩
    by_cases hh : Objects[m].GetHash = item.GetHash
    · have hlb : lastBefore Objects item.GetHash (m + 1) = (m : Int) := by
        simp [lastBefore, hget, hh]
      by_cases hk : Objects[m].Package = item.Package ∧ Objects[m].ExportIndex = item.ExportIndex
      · refine ⟨true, ?_, by simp [step, hk]⟩
        rw [hlb]
        simp [ExportContext.walk, hget, hk]
      · obtain ⟨b, hb, hiff⟩ := ih f (by omega)
        refine ⟨b, ?_, by rw [hiff, step]; simp [hk]⟩
        rw [hlb]
        have hn := hnext m Objects[m] hget
        rw [hh] at hn
        simp only [ExportContext.walk, Int.toNat_ofNat, hget, if_neg hk, hn]
        simpa using hb
    · have hlb : lastBefore Objects item.GetHash (m + 1) = lastBefore Objects item.GetHash m := by
        simp [lastBefore, hget, hh]
      have hk : ¬ (Objects[m].Package = item.Package ∧ Objects[m].ExportIndex = item.ExportIndex) :=
        fun hk => hh (GetHash_eq_of_key hk)
      obtain ⟨b, hb, hiff⟩ := ih (f + 1) (by omega)
      exact ⟨b, by rw [hlb]; exact hb, by rw [hiff, step]; simp [hk]⟩

theorem foundBelow_length (Objects : List ExportedObjectEntry) (Obj : UObject) :
    foundBelow Objects (ExportedObjectEntry.ofObject Obj) Objects.length ↔
      ∃ e ∈ Objects, e.Holds Obj := by
  constructor
  · rintro ⟨j, e, _, he, hk⟩
    exact ⟨e, List.getElem?_mem he, hk⟩
  · rintro ⟨e, he, hk⟩
    obtain ⟨j, hj, rfl⟩ := List.mem_iff_getElem.mp he
    exact ⟨j, Objects[j], hj, List.getElem?_eq_getElem hj, hk⟩

/-- In a session with well-shaped chains `ItemExists` returns, and returns
`true` exactly when some entry of the list records the key of the asset. -/
theorem ItemExists_of_chained {ctx : ExportContext} (hc : ctx.Chained) (Obj : UObject) :
    ∃ b, ctx.ItemExists Obj = some b ∧ (b = true ↔ ∃ e ∈ ctx.Objects, e.Holds Obj) := by
  obtain ⟨b, hb, hiff⟩ := walk_lastBefore ctx.Objects (ExportedObjectEntry.ofObject Obj) hc.next
    ctx.Objects.length (Nat.le_refl _) (ctx.Objects.length + 1) (Nat.lt_succ_self _)
  refine ⟨b, ?_, hiff.trans (foundBelow_length ctx.Objects Obj)⟩
  unfold ExportContext.ItemExists
  simp only
  rw [hc.head]
  exact hb

theorem Chained_Reset (ctx : ExportContext) : ctx.Reset.Chained :=
  ⟨fun _ => rfl, fun i e h => by simp [ExportContext.Reset] at h⟩

/-- What `AddItem` does, case by case on the result of `ItemExists`. -/
theorem AddItem_cases (ctx : ExportContext) (Obj : UObject) :
    (ctx.ItemExists Obj = none ∧ ctx.AddItem Obj = none) ∨
    (ctx.ItemExists Obj = some true ∧ ctx.AddItem Obj = some (false, ctx)) ∨
    (ctx.ItemExists Obj = some false ∧
      ctx.AddItem Obj = some (true,
        { ctx with
          Objects := ctx.Objects ++
            [{ ExportedObjectEntry.ofObject Obj with
                HashNext := ctx.ObjectHash (ExportedObjectEntry.ofObject Obj).GetHash }]
          ObjectHash := fun i =>
            if i = (ExportedObjectEntry.ofObject Obj).GetHash then (ctx.Objects.length : Int)
            else ctx.ObjectHash i })) := by
  unfold ExportContext.AddItem
  rcases h : ctx.ItemExists Obj with _ | b
  · simp
  · cases b <;> simp

theorem Chained_AddItem {ctx ctx' : ExportContext} {Obj : UObject} {r : Bool}
    (hc : ctx.Chained) (h : ctx.AddItem Obj = some (r, ctx')) : ctx'.Chained := by
  rcases AddItem_cases ctx Obj with ⟨_, h'⟩ | ⟨_, h'⟩ | ⟨_, h'⟩
  · rw [h'] at h; cases h
  · rw [h'] at h; cases h; exact hc
  · rw [h'] at h
    cases h
    have hkey : ∀ x : Int, ({ ExportedObjectEntry.ofObject Obj with HashNext := x } :
        ExportedObjectEntry).GetHash = (ExportedObjectEntry.ofObject Obj).GetHash :=
      fun x => GetHash_eq_of_key ⟨rfl, rfl⟩
    constructor
    · intro h
      simp only [List.length_append, List.length_singleton, lastBefore,
        List.getElem?_concat_length, hkey]
      by_cases hh : (ExportedObjectEntry.ofObject Obj).GetHash = h
      · simp [hh]
      · have hh' : ¬ h = (ExportedObjectEntry.ofObject Obj).GetHash := fun e => hh e.symm
        simp only [if_neg hh, if_neg hh']
        rw [lastBefore_append _ _ _ _ (Nat.le_refl _)]
        exact hc.head h
    · intro i e hi
      simp only at hi
      by_cases hlt : i < ctx.Objects.length
      · rw [List.getElem?_append_left hlt] at hi
        rw [lastBefore_append _ _ _ _ (Nat.le_of_lt hlt)]
        exact hc.next i e hi
      · have hlen : i < (ctx.Objects ++ [{ ExportedObjectEntry.ofObject Obj with
            HashNext := ctx.ObjectHash (ExportedObjectEntry.ofObject Obj).GetHash }]).length := by
          by_contra hcon
          rw [List.getElem?_eq_none (Nat.le_of_not_lt hcon)] at hi
          cases hi
        simp only [List.length_append, List.length_singleton] at hlen
        obtain rfl : i = ctx.Objects.length := by omega
        rw [List.getElem?_concat_length] at hi
        cases hi
        simp only [hkey]
        rw [lastBefore_append _ _ _ _ (Nat.le_refl _)]
        exact hc.head _

theorem AddItem_keys {ctx ctx' : ExportContext} {Obj : UObject} {r : Bool}
    (hc : ctx.Chained) (h : ctx.AddItem Obj = some (r, ctx')) (k : UObject) :
    (∃ e ∈ ctx'.Objects, e.Holds k) ↔ ((∃ e ∈ ctx.Objects, e.Holds k) ∨ SameKey Obj k) := by
  rcases AddItem_cases ctx Obj with ⟨_, h'⟩ | ⟨hex, h'⟩ | ⟨_, h'⟩
  · rw [h'] at h; cases h
  · rw [h'] at h
    cases h
    obtain ⟨b, hb, hiff⟩ := ItemExists_of_chained hc Obj
    rw [hex] at hb
    cases hb
    obtain ⟨e, he, hk⟩ := hiff.mp rfl
    constructor
    · exact Or.inl
    · rintro (h1 | h2)
      · exact h1
      · exact ⟨e, he, hk.1.trans h2.1, hk.2.trans h2.2⟩
  · rw [h'] at h
    cases h
    simp only [List.mem_append, List.mem_singleton]
    constructor
    · rintro ⟨e, he | rfl, hk⟩
      · exact Or.inl ⟨e, he, hk⟩
      · exact Or.inr hk
    · rintro (⟨e, he, hk⟩ | h2)
      · exact ⟨e, Or.inl he, hk⟩
      · exact ⟨_, Or.inr rfl, h2⟩

theorem AddItem_total {ctx : ExportContext} (hc : ctx.Chained) (Obj : UObject) :
    ∃ r ctx', ctx.AddItem Obj = some (r, ctx') := by
  obtain ⟨b, hb, _⟩ := ItemExists_of_chained hc Obj
  rcases AddItem_cases ctx Obj with ⟨hn, _⟩ | ⟨_, h'⟩ | ⟨_, h'⟩
  · rw [hn] at hb; cases hb
  · exact ⟨_, _, h'⟩
  · exact ⟨_, _, h'⟩

theorem addItems_chained : ∀ (added : List UObject) (ctx : ExportContext), ctx.Chained →
    ∃ ctx', ctx.addItems added = some ctx' ∧ ctx'.Chained ∧
      ∀ k, (∃ e ∈ ctx'.Objects, e.Holds k) ↔
        ((∃ e ∈ ctx.Objects, e.Holds k) ∨ ∃ o ∈ added, SameKey o k)
  | [], ctx, hc => ⟨ctx, rfl, hc, fun k => by simp⟩
  | Obj :: rest, ctx, hc => by
    obtain ⟨r, ctx1, h1⟩ := AddItem_total hc Obj
    obtain ⟨ctx', hrun, hc', hkeys⟩ := addItems_chained rest ctx1 (Chained_AddItem hc h1)
    refine ⟨ctx', by simp [ExportContext.addItems, h1, hrun], hc', fun k => ?_⟩
    rw [hkeys k, AddItem_keys hc h1 k]
    simp only [List.mem_cons, exists_eq_or_imp]
    exact or_assoc

/-- C1. In the session reached from `Reset` by any sequence of `AddItem` calls,
`ItemExists` returns, and it returns `true` for a key exactly when an asset with
the same package pointer and the same export index was passed to `AddItem`. In
particular, when the key of `k` was not added, adding a different key `k'` with
the same `GetHash` value leaves `ItemExists` false for `k`. -/
theorem ItemExists_iff_added (c0 : ExportContext) (added : List UObject) :
    ∃ ctx, c0.Reset.addItems added = some ctx ∧
      ∀ k : UObject,
        (∃ b, ctx.ItemExists k = some b ∧ (b = true ↔ ∃ o ∈ added, SameKey o k)) ∧
        ∀ k' : UObject,
          (ExportedObjectEntry.ofObject k').GetHash = (ExportedObjectEntry.ofObject k).GetHash →
          ¬ SameKey k' k → (¬ ∃ o ∈ added, SameKey o k) →
          ∃ r ctx', ctx.AddItem k' = some (r, ctx') ∧ ctx'.ItemExists k = some false := by
  obtain ⟨ctx, hrun, hc, hkeys⟩ := addItems_chained added c0.Reset (Chained_Reset c0)
  have hkeys' : ∀ k, (∃ e ∈ ctx.Objects, e.Holds k) ↔ ∃ o ∈ added, SameKey o k := by
    intro k
    rw [hkeys k]
    simp [ExportContext.Reset]
  refine ⟨ctx, hrun, fun k => ⟨?_, ?_⟩⟩
  · obtain ⟨b, hb, hiff⟩ := ItemExists_of_chained hc k
    exact ⟨b, hb, hiff.trans (hkeys' k)⟩
  · intro k' _ hne hnot
    obtain ⟨r, ctx', hadd⟩ := AddItem_total hc k'
    refine ⟨r, ctx', hadd, ?_⟩
    obtain ⟨b, hb, hiff⟩ := ItemExists_of_chained (Chained_AddItem hc hadd) k
    rw [AddItem_keys hc hadd k, hkeys' k] at hiff
    cases b
    · exact hb
    · rcases hiff.mp rfl with h | h
      · exact absurd h hnot
      · exact absurd h hne

/-- Witness of C1: `objA` and `objB` are different keys with the same hash;
after `objC` was added, adding `objB` leaves `ItemExists` false for `objA`. -/
theorem ItemExists_iff_added_witness :
    (ExportedObjectEntry.ofObject objB).GetHash = (ExportedObjectEntry.ofObject objA).GetHash ∧
    ¬ SameKey objB objA ∧
    ∃ ctx, freshContext.Reset.addItems [objC] = some ctx ∧
      ∃ r ctx', ctx.AddItem objB = some (r, ctx') ∧ ctx'.ItemExists objA = some false := by
  obtain ⟨ctx, hrun, h⟩ := ItemExists_iff_added freshContext [objC]
  exact ⟨by decide, by decide, ctx, hrun,
    (h objA).2 objB (by decide) (by decide) (by decide)⟩

/-- C2. `AddItem` against `ItemExists`: when `ItemExists` returns `true`,
`AddItem` returns `false` and the session is unchanged; when it returns `false`,
`AddItem` returns `true`, the list grows by one entry holding the key of the
asset, appended at the end, whose `HashNext` is the previous head of the bucket
`GetHash`, that bucket head becomes the index of the new entry, every other
bucket head and every other field stays as it was. `ItemExists` returns in every
session with well-shaped chains; where it does not return, `AddItem` does not
return either. -/
theorem AddItem_spec (ctx : ExportContext) (Obj : UObject) :
    (ctx.Chained → ∃ b, ctx.ItemExists Obj = some b) ∧
    (ctx.ItemExists Obj = some true → ctx.AddItem Obj = some (false, ctx)) ∧
    (ctx.ItemExists Obj = some false →
      ∃ ctx', ctx.AddItem Obj = some (true, ctx') ∧
        ctx'.Objects = ctx.Objects ++
          [{ Package := Obj.PackagePtr, ExportIndex := Obj.PackageIndex,
             HashNext := ctx.ObjectHash (ExportedObjectEntry.ofObject Obj).GetHash }] ∧
        ctx'.ObjectHash (ExportedObjectEntry.ofObject Obj).GetHash = (ctx.Objects.length : Int) ∧
        (∀ h, h ≠ (ExportedObjectEntry.ofObject Obj).GetHash →
          ctx'.ObjectHash h = ctx.ObjectHash h) ∧
        ctx'.LastExported = ctx.LastExported ∧
        ctx'.NumSkippedObjects = ctx.NumSkippedObjects ∧
        ctx'.startTime = ctx.startTime) ∧
    (ctx.ItemExists Obj = none → ctx.AddItem Obj = none) := by
  refine ⟨fun hc => ?_, fun hex => ?_, fun hex => ?_, fun hex => ?_⟩
  · obtain ⟨b, hb, _⟩ := ItemExists_of_chained hc Obj
    exact ⟨b, hb⟩
  · rcases AddItem_cases ctx Obj with ⟨h1, _⟩ | ⟨_, h'⟩ | ⟨h1, _⟩
    · rw [h1] at hex; cases hex
    · exact h'
    · rw [h1] at hex; cases hex
  · rcases AddItem_cases ctx Obj with ⟨h1, _⟩ | ⟨h1, _⟩ | ⟨_, h'⟩
    · rw [h1] at hex; cases hex
    · rw [h1] at hex; cases hex
    · refine ⟨_, h', rfl, by simp, fun h hne => by simp [hne], rfl, rfl, rfl⟩
  · rcases AddItem_cases ctx Obj with ⟨_, h'⟩ | ⟨h1, _⟩ | ⟨h1, _⟩
    · exact h'
    · rw [h1] at hex; cases hex
    · rw [h1] at hex; cases hex

/-- Witness of C2: `objA` is new in `freshContext` and is appended with
`HashNext = -1`; in `sessionWithA` it exists and `AddItem` changes nothing. -/
theorem AddItem_spec_witness :
    (freshContext.ItemExists objA = some false ∧
      ∃ ctx', freshContext.AddItem objA = some (true, ctx') ∧
        ctx'.Objects = [{ Package := 8, ExportIndex := 0, HashNext := -1 }] ∧
        ctx'.ObjectHash 1 = 0) ∧
    (sessionWithA.ItemExists objA = some true ∧
      sessionWithA.AddItem objA = some (false, sessionWithA)) := by
  refine ⟨⟨by decide, ?_⟩, by decide, (AddItem_spec sessionWithA objA).2.1 (by decide)⟩
  obtain ⟨ctx', h1, h2, h3, _⟩ := (AddItem_spec freshContext objA).2.2.1 (by decide)
  exact ⟨ctx', h1, h2, h3⟩

/-! ## Properties of `CreateExportArchive` -/

theorem Chained_congr {ctx ctx' : ExportContext} (h1 : ctx'.Objects = ctx.Objects)
    (h2 : ctx'.ObjectHash = ctx.ObjectHash) (hc : ctx.Chained) : ctx'.Chained :=
  ⟨fun h => by rw [h1, h2]; exact hc.head h, fun i e he => by
    rw [h1] at he ⊢
    exact hc.next i e he⟩

theorem ItemExists_congr {ctx ctx' : ExportContext} (h1 : ctx'.Objects = ctx.Objects)
    (h2 : ctx'.ObjectHash = ctx.ObjectHash) (Obj : UObject) :
    ctx'.ItemExists Obj = ctx.ItemExists Obj := by
  unfold ExportContext.ItemExists
  rw [h1, h2]

/-- The part of `CreateExportArchive` after the registration touches neither
the list of exported objects nor the bucket heads nor `LastExported`. -/
theorem finish_session (g : Globals) (w : World) (Obj : UObject) (FileOptions : Nat)
    (name : CStr) (bNew : Bool) :
    (CreateExportArchive.finish g w Obj FileOptions name bNew).2.ctx.Objects = w.ctx.Objects ∧
    (CreateExportArchive.finish g w Obj FileOptions name bNew).2.ctx.ObjectHash
      = w.ctx.ObjectHash ∧
    (CreateExportArchive.finish g w Obj FileOptions name bNew).2.ctx.LastExported
      = w.ctx.LastExported := by
  unfold CreateExportArchive.finish
  simp only
  split
  · exact ⟨rfl, rfl, rfl⟩
  · split <;> split <;> (try split) <;> exact ⟨rfl, rfl, rfl⟩

/-- C4. For a keyable asset that is already recorded (`ItemExists` returns
`true`; in a session with well-shaped chains: some entry of the list holds its
key) and a session whose `LastExported` is another object,
`CreateExportArchive` returns `NULL` for every name and changes nothing: the
session, the file system, the log and the other state are as before. -/
theorem CreateExportArchive_duplicate (g : Globals) (w : World) (Obj : UObject)
    (FileOptions : Nat) (name : CStr)
    (hkey : Obj.Package ≠ none ∧ 0 ≤ Obj.PackageIndex)
    (hrec : w.ctx.ItemExists Obj = some true ∨
      (w.ctx.Chained ∧ ∃ e ∈ w.ctx.Objects, e.Holds Obj))
    (hlast : w.ctx.LastExported ≠ Obj.addr) :
    CreateExportArchive g w Obj FileOptions name = some (none, w) := by
  have hex : w.ctx.ItemExists Obj = some true := by
    rcases hrec with h | ⟨hc, hmem⟩
    · exact h
    · obtain ⟨b, hb, hiff⟩ := ItemExists_of_chained hc Obj
      rw [hb, hiff.mpr hmem]
  have hadd : w.ctx.AddItem Obj = some (false, w.ctx) := by
    rcases AddItem_cases w.ctx Obj with ⟨h1, _⟩ | ⟨_, h'⟩ | ⟨h1, _⟩
    · rw [h1] at hex; cases hex
    · exact h'
    · rw [h1] at hex; cases hex
  have hreg : RegisterProcessedObject w.ctx Obj = some (false, w.ctx) := by
    unfold RegisterProcessedObject
    rw [if_neg (by rintro (h | h); exact hkey.1 h; omega)]
    exact hadd
  unfold CreateExportArchive
  rw [if_pos hlast, hreg]

/-- Witness of C4: `objA` is recorded in `worldWithA`, whose `LastExported` is
`NULL`. -/
theorem CreateExportArchive_duplicate_witness :
    CreateExportArchive sampleGlobals worldWithA objA 0 "Mesh.pskx".toList
      = some (none, worldWithA) :=
  CreateExportArchive_duplicate sampleGlobals worldWithA objA 0 "Mesh.pskx".toList
    ⟨by decide, by decide⟩ (Or.inl (by decide)) (by decide)

theorem finish_none (g : Globals) (w : World) (Obj : UObject) (FileOptions : Nat)
    (name : CStr) (bNew : Bool)
    (h : (CreateExportArchive.finish g w Obj FileOptions name bNew).1 = none) :
    255 ≤ name.length ∨
      ∃ filename ∈ w.fs.locked,
        (GetExportFileName g w.BaseExportDir Obj name).1 = some filename := by
  unfold CreateExportArchive.finish at h
  simp only at h
  split at h
  · rename_i hnone
    left
    unfold GetExportFileName at hnone
    split at hnone
    · omega
    · cases hnone
  · rename_i filename hsome
    right
    refine ⟨filename, ?_, hsome⟩
    by_contra hnot
    have hopen : ∀ fs : FileSystem, fs.locked = w.fs.locked →
        ((fs.appMakeDirectoryForFile filename).openWriter filename).1 = true := by
      intro fs hfs
      simp [FileSystem.openWriter, FileSystem.appMakeDirectoryForFile, hfs, hnot]
    split at h
    · split at h
      · rw [hopen _ rfl] at h
        simp at h
      · rw [hopen _ rfl] at h
        simp at h
    · rw [hopen _ rfl] at h
      simp at h

theorem RegisterProcessedObject_unkeyable (ctx : ExportContext) (Obj : UObject)
    (hun : Obj.Package = none ∨ Obj.PackageIndex < 0) :
    RegisterProcessedObject ctx Obj = some (true, ctx) := by
  unfold RegisterProcessedObject
  rw [if_pos hun]

theorem CreateExportArchive_unkeyable (g : Globals) (w : World) (Obj : UObject)
    (FileOptions : Nat) (name : CStr) (hun : Obj.Package = none ∨ Obj.PackageIndex < 0) :
    CreateExportArchive g w Obj FileOptions name =
      some (if w.ctx.LastExported ≠ Obj.addr then
        CreateExportArchive.finish g
          { w with ctx := { w.ctx with LastExported := Obj.addr } } Obj FileOptions name true
        else CreateExportArchive.finish g w Obj FileOptions name false) := by
  unfold CreateExportArchive
  rw [RegisterProcessedObject_unkeyable w.ctx Obj hun]
  split <;> rfl

theorem RegisterProcessedObject_inv {ctx ctx' : ExportContext} {Obj : UObject} {r : Bool}
    (hv : Obj.ValidPtr) (hc : ctx.Chained) (hk : ctx.Keyed)
    (h : RegisterProcessedObject ctx Obj = some (r, ctx')) :
    ctx'.Chained ∧ ctx'.Keyed ∧ ctx'.LastExported = ctx.LastExported ∧
      ctx'.NumSkippedObjects = ctx.NumSkippedObjects := by
  unfold RegisterProcessedObject at h
  split at h
  · cases h
    exact ⟨hc, hk, rfl, rfl⟩
  · rename_i hkeyable
    refine ⟨Chained_AddItem hc h, ?_⟩
    rcases AddItem_cases ctx Obj with ⟨_, h'⟩ | ⟨_, h'⟩ | ⟨_, h'⟩
    · rw [h'] at h; cases h
    · rw [h'] at h; cases h; exact ⟨hk, rfl, rfl⟩
    · rw [h'] at h
      cases h
      refine ⟨?_, rfl, rfl⟩
      intro e he
      simp only [List.mem_append, List.mem_singleton] at he
      rcases he with he | rfl
      · exact hk e he
      · simp only [ExportedObjectEntry.ofObject]
        constructor
        · rcases hp : Obj.Package with _ | p
          · exact absurd (Or.inl hp) hkeyable
          · simp only [UObject.PackagePtr, hp]
            exact hv p hp
        · by_contra hneg
          exact hkeyable (Or.inr (by omega))

theorem RegisterProcessedObject_total {ctx : ExportContext} (hc : ctx.Chained) (Obj : UObject) :
    ∃ r ctx', RegisterProcessedObject ctx Obj = some (r, ctx') := by
  unfold RegisterProcessedObject
  split
  · exact ⟨_, _, rfl⟩
  · exact AddItem_total hc Obj

theorem CreateExportArchive_inv (g : Globals) (w : World) (Obj : UObject)
    (FileOptions : Nat) (name : CStr)
    (hv : Obj.ValidPtr) (hc : w.ctx.Chained) (hk : w.ctx.Keyed) :
    ∃ a w', CreateExportArchive g w Obj FileOptions name = some (a, w') ∧
      w'.ctx.Chained ∧ w'.ctx.Keyed := by
  by_cases hlast : w.ctx.LastExported ≠ Obj.addr
  · obtain ⟨r, ctx', hreg⟩ := RegisterProcessedObject_total hc Obj
    obtain ⟨hc', hk', _, _⟩ := RegisterProcessedObject_inv hv hc hk hreg
    cases r
    · refine ⟨none, { w with ctx := ctx' }, ?_, hc', hk'⟩
      unfold CreateExportArchive
      rw [if_pos hlast, hreg]
    · obtain ⟨h1, h2, _⟩ := finish_session g
        { w with ctx := { ctx' with LastExported := Obj.addr } } Obj FileOptions name true
      have hc2 : ({ ctx' with LastExported := Obj.addr } : ExportContext).Chained :=
        @Chained_congr ctx' _ rfl rfl hc'
      refine ⟨(CreateExportArchive.finish g
          { w with ctx := { ctx' with LastExported := Obj.addr } } Obj FileOptions name true).1,
        (CreateExportArchive.finish g
          { w with ctx := { ctx' with LastExported := Obj.addr } } Obj FileOptions name true).2,
        ?_, Chained_congr h1 h2 hc2, ?_⟩
      · unfold CreateExportArchive
        rw [if_pos hlast, hreg]
      · intro e he
        rw [h1] at he
        exact hk' e he
  · obtain ⟨h1, h2, _⟩ := finish_session g w Obj FileOptions name false
    refine ⟨(CreateExportArchive.finish g w Obj FileOptions name false).1,
      (CreateExportArchive.finish g w Obj FileOptions name false).2, ?_,
      Chained_congr h1 h2 hc, ?_⟩
    · unfold CreateExportArchive
      rw [if_neg hlast]
    · intro e he
      rw [h1] at he
      exact hk e he

theorem runArchiveCalls_inv (g : Globals) :
    ∀ (calls : List ArchiveCall) (w : World), (∀ c ∈ calls, c.Obj.ValidPtr) →
      w.ctx.Chained → w.ctx.Keyed →
      ∃ w', runArchiveCalls g w calls = some w' ∧ w'.ctx.Chained ∧ w'.ctx.Keyed
  | [], w, _, hc, hk => ⟨w, rfl, hc, hk⟩
  | c :: rest, w, hv, hc, hk => by
    obtain ⟨a, w1, h1, hc1, hk1⟩ :=
      CreateExportArchive_inv g w c.Obj c.FileOptions c.name (hv c (List.mem_cons_self _ _)) hc hk
    obtain ⟨w', hrun, hc', hk'⟩ := runArchiveCalls_inv g rest w1
      (fun d hd => hv d (List.mem_cons_of_mem _ hd)) hc1 hk1
    exact ⟨w', by simp [runArchiveCalls, h1, hrun], hc', hk'⟩

theorem runArchiveCalls_unkeyable (g : Globals) :
    ∀ (calls : List ArchiveCall) (w : World),
      (∀ c ∈ calls, c.Obj.Package = none ∨ c.Obj.PackageIndex < 0) →
      ∃ w', runArchiveCalls g w calls = some w' ∧
        w'.ctx.Objects = w.ctx.Objects ∧ w'.ctx.ObjectHash = w.ctx.ObjectHash
  | [], w, _ => ⟨w, rfl, rfl, rfl⟩
  | c :: rest, w, hun => by
    have h1 := CreateExportArchive_unkeyable g w c.Obj c.FileOptions c.name
      (hun c (List.mem_cons_self _ _))
    obtain ⟨w', hrun, ho, hh⟩ := runArchiveCalls_unkeyable g rest
      (if w.ctx.LastExported ≠ c.Obj.addr then
        CreateExportArchive.finish g
          { w with ctx := { w.ctx with LastExported := c.Obj.addr } } c.Obj c.FileOptions
          c.name true
        else CreateExportArchive.finish g w c.Obj c.FileOptions c.name false).2
      (fun d hd => hun d (List.mem_cons_of_mem _ hd))
    refine ⟨w', by simp only [runArchiveCalls, h1]; exact hrun, ?_, ?_⟩
    · rw [ho]
      split
      · exact (finish_session g _ c.Obj c.FileOptions c.name true).1
      · exact (finish_session g _ c.Obj c.FileOptions c.name false).1
    · rw [hh]
      split
      · exact (finish_session g _ c.Obj c.FileOptions c.name true).2.1
      · exact (finish_session g _ c.Obj c.FileOptions c.name false).2.1

theorem ItemExists_unkeyable_false {ctx : ExportContext} (hc : ctx.Chained) (hk : ctx.Keyed)
    (Obj : UObject) (hun : Obj.Package = none ∨ Obj.PackageIndex < 0) :
    ctx.ItemExists Obj = some false := by
  obtain ⟨b, hb, hiff⟩ := ItemExists_of_chained hc Obj
  cases b
  · exact hb
  · obtain ⟨e, he, hp, hi⟩ := hiff.mp rfl
    obtain ⟨hp0, hi0⟩ := hk e he
    rcases hun with h | h
    · simp only [UObject.PackagePtr, h] at hp
      exact absurd hp hp0
    · omega

/-- C5. For an asset without package or with a negative index, in every state:
`RegisterProcessedObject` returns `true` and leaves the session as it is;
`CreateExportArchive` returns, and what it returns is what the part after the
registration computes, so that a `NULL` archive comes from the length test of
the file name or from a failed open only; the list of exported objects, the
bucket heads and the answer of `IsObjectExported` are unchanged, also after any
sequence of such calls; and in every session reached from `Reset` by
`CreateExportArchive` calls on assets with valid package pointers
`IsObjectExported` returns `false` for the asset. -/
theorem unkeyable_never_deduplicated (g : Globals) (w : World) (Obj : UObject)
    (hun : Obj.Package = none ∨ Obj.PackageIndex < 0) :
    RegisterProcessedObject w.ctx Obj = some (true, w.ctx) ∧
    (∀ (FileOptions : Nat) (name : CStr), ∃ a w',
      CreateExportArchive g w Obj FileOptions name = some (a, w') ∧
      (a, w') = (if w.ctx.LastExported ≠ Obj.addr then
          CreateExportArchive.finish g
            { w with ctx := { w.ctx with LastExported := Obj.addr } } Obj FileOptions name true
          else CreateExportArchive.finish g w Obj FileOptions name false) ∧
      (a = none → 255 ≤ name.length ∨
        ∃ filename ∈ w.fs.locked,
          (GetExportFileName g w.BaseExportDir Obj name).1 = some filename) ∧
      w'.ctx.Objects = w.ctx.Objects ∧ w'.ctx.ObjectHash = w.ctx.ObjectHash ∧
      IsObjectExported w'.ctx Obj = IsObjectExported w.ctx Obj) ∧
    (∀ calls : List ArchiveCall,
      (∀ c ∈ calls, c.Obj.Package = none ∨ c.Obj.PackageIndex < 0) →
      ∃ w', runArchiveCalls g w calls = some w' ∧
        w'.ctx.Objects = w.ctx.Objects ∧ w'.ctx.ObjectHash = w.ctx.ObjectHash ∧
        IsObjectExported w'.ctx Obj = IsObjectExported w.ctx Obj) ∧
    (∀ calls : List ArchiveCall, (∀ c ∈ calls, c.Obj.ValidPtr) →
      ∃ w', runArchiveCalls g { w with ctx := w.ctx.Reset } calls = some w' ∧
        IsObjectExported w'.ctx Obj = some false) := by
  refine ⟨RegisterProcessedObject_unkeyable w.ctx Obj hun, fun FileOptions name => ?_,
    fun calls hcalls => ?_, fun calls hcalls => ?_⟩
  · have hcall := CreateExportArchive_unkeyable g w Obj FileOptions name hun
    by_cases hlast : w.ctx.LastExported ≠ Obj.addr
    · rw [if_pos hlast] at hcall
      obtain ⟨h1, h2, _⟩ := finish_session g
        { w with ctx := { w.ctx with LastExported := Obj.addr } } Obj FileOptions name true
      refine ⟨(CreateExportArchive.finish g
          { w with ctx := { w.ctx with LastExported := Obj.addr } } Obj FileOptions name true).1,
        (CreateExportArchive.finish g
          { w with ctx := { w.ctx with LastExported := Obj.addr } } Obj FileOptions name true).2,
        hcall, ?_, fun ha => ?_, h1, h2, ItemExists_congr h1 h2 Obj⟩
      · rw [if_pos hlast]
      · exact finish_none g { w with ctx := { w.ctx with LastExported := Obj.addr } } Obj
          FileOptions name true ha
    · rw [if_neg hlast] at hcall
      obtain ⟨h1, h2, _⟩ := finish_session g w Obj FileOptions name false
      refine ⟨(CreateExportArchive.finish g w Obj FileOptions name false).1,
        (CreateExportArchive.finish g w Obj FileOptions name false).2, hcall, ?_,
        fun ha => finish_none g w Obj FileOptions name false ha, h1, h2,
        ItemExists_congr h1 h2 Obj⟩
      rw [if_neg hlast]
  · obtain ⟨w', hrun, h1, h2⟩ := runArchiveCalls_unkeyable g calls w hcalls
    exact ⟨w', hrun, h1, h2, ItemExists_congr h1 h2 Obj⟩
  · obtain ⟨w', hrun, hc, hk⟩ := runArchiveCalls_inv g calls { w with ctx := w.ctx.Reset }
      hcalls (Chained_Reset w.ctx) (fun e he => by simp [ExportContext.Reset] at he)
    exact ⟨w', hrun, ItemExists_unkeyable_false hc hk Obj hun⟩

/-- Witness of C5: the generated asset `objGenerated` has no package. -/
theorem unkeyable_never_deduplicated_witness :
    RegisterProcessedObject world0.ctx objGenerated = some (true, world0.ctx) ∧
    ∃ w', runArchiveCalls sampleGlobals { world0 with ctx := world0.ctx.Reset }
        [{ Obj := objA, FileOptions := 0, name := "Mesh.pskx".toList },
         { Obj := objGenerated, FileOptions := 0, name := "Flags.mat".toList },
         { Obj := objGenerated, FileOptions := 0, name := "Flags.mat".toList }] = some w' ∧
      IsObjectExported w'.ctx objGenerated = some false := by
  have h := unkeyable_never_deduplicated sampleGlobals world0 objGenerated (Or.inl rfl)
  refine ⟨h.1, h.2.2.2 _ ?_⟩
  intro c hc p hp
  simp only [List.mem_cons, List.mem_singleton, List.not_mem_nil, or_false] at hc
  rcases hc with rfl | rfl | rfl
  · cases hp; decide
  · cases hp
  · cases hp

/-! ## Properties of `ExportObject` -/

theorem ExportObject_loop_none (g : Globals) (b : Bool) (Obj : UObject) (w : World) :
    ∀ (exporters : List CExporterInfo) (start : Nat),
      (∀ Info ∈ exporters, Obj.IsA Info.ClassName = false) →
      ExportObject.loop g b Obj w start exporters =
        { handled := false, world := w, Obj := some Obj, invoked := [] }
  | [], _, _ => rfl
  | Info :: rest, start, h => by
    have h0 : Obj.IsA Info.ClassName = false := h Info (List.mem_cons_self _ _)
    simp only [ExportObject.loop, h0]
    exact ExportObject_loop_none g b Obj w rest (start + 1)
      (fun I hI => h I (List.mem_cons_of_mem _ hI))

theorem ExportObject_loop_first (g : Globals) (b : Bool) (Obj : UObject) (w : World) :
    ∀ (exporters : List CExporterInfo) (start i : Nat) (Info : CExporterInfo),
      exporters[i]? = some Info → Obj.IsA Info.ClassName = true →
      (∀ j I, j < i → exporters[j]? = some I → Obj.IsA I.ClassName = false) →
      ExportObject.loop g b Obj w start exporters =
        ExportObject.body g b Obj w (start + i) Info
  | [], _, i, Info, h, _, _ => by simp at h
  | I0 :: rest, start, 0, Info, h, hIsA, _ => by
    simp only [List.getElem?_cons_zero, Option.some.injEq] at h
    subst h
    simp [ExportObject.loop, hIsA]
  | I0 :: rest, start, i + 1, Info, h, hIsA, hfirst => by
    have h0 : Obj.IsA I0.ClassName = false := hfirst 0 I0 (Nat.succ_pos i) (by simp)
    rw [List.getElem?_cons_succ] at h
    simp only [ExportObject.loop, h0]
    rw [ExportObject_loop_first g b Obj w rest (start + 1) i Info h hIsA
      (fun j I hj hI => hfirst (j + 1) I (Nat.succ_lt_succ hj)
        (by rw [List.getElem?_cons_succ]; exact hI))]
    have harith : start + 1 + i = start + (i + 1) := by omega
    rw [harith]
    simp

theorem exists_first_compatible (Obj : UObject) :
    ∀ exporters : List CExporterInfo,
      (∃ Info ∈ exporters, Obj.IsA Info.ClassName = true) →
      ∃ (i : Nat) (Info : CExporterInfo),
        exporters[i]? = some Info ∧ Obj.IsA Info.ClassName = true ∧
        ∀ (j : Nat) (I : CExporterInfo), j < i → exporters[j]? = some I →
          Obj.IsA I.ClassName = false
  | [], h => by simp at h
  | I0 :: rest, h => by
    by_cases h0 : Obj.IsA I0.ClassName = true
    · exact ⟨0, I0, by simp, h0, fun j I hj _ => absurd hj (Nat.not_lt_zero j)⟩
    · obtain ⟨Info, hmem, hIsA⟩ := h
      have hrest : ∃ Info ∈ rest, Obj.IsA Info.ClassName = true := by
        rcases List.mem_cons.mp hmem with rfl | hm
        · exact absurd hIsA h0
        · exact ⟨Info, hm, hIsA⟩
      obtain ⟨i, I, hi, hI, hfirst⟩ := exists_first_compatible Obj rest hrest
      refine ⟨i + 1, I, by rw [List.getElem?_cons_succ]; exact hi, hI, fun j J hj hJ => ?_⟩
      cases j with
      | zero =>
        simp only [List.getElem?_cons_zero, Option.some.injEq] at hJ
        subst hJ
        simpa using h0
      | succ j =>
        rw [List.getElem?_cons_succ] at hJ
        exact hfirst j J (Nat.lt_of_succ_lt_succ hj) hJ

/-- The name put on the asset for the call of the exporter function is taken
back: the body leaves the asset as it found it. -/
theorem ExportObject_body_restores (g : Globals) (b : Bool) (Obj : UObject) (w : World)
    (i : Nat) (Info : CExporterInfo) :
    (ExportObject.body g b Obj w i Info).Obj = some Obj := by
  unfold ExportObject.body
  simp only
  cases b
  · rfl
  · simp only [if_true]
    split_ifs <;> rfl

theorem ExportObject_body_spec (g : Globals) (b : Bool) (Obj : UObject) (w : World)
    (i : Nat) (Info : CExporterInfo) :
    (ExportObject.body g b Obj w i Info).handled = true ∧
    (ExportObject.body g b Obj w i Info).Obj = some Obj ∧
    ∃ passed before,
      (ExportObject.body g b Obj w i Info).invoked = [(i, passed)] ∧
      passed.addr = Obj.addr ∧
      (ExportObject.body g b Obj w i Info).world =
        { Info.Func passed before with
          ctx := { (Info.Func passed before).ctx with
            LastExported := before.ctx.LastExported } } ∧
      before.ctx = w.ctx ∧ before.fs = w.fs := by
  refine ⟨rfl, ExportObject_body_restores g b Obj w i Info, _, _, rfl, ?_, rfl, ?_, ?_⟩
  · simp only
    split <;> rfl
  · simp only
    split
    · split <;> rfl
    · rfl
  · simp only
    split
    · split <;> rfl
    · rfl

/-- C6. For a non-null asset whose name does not start with the `Default__`
marker (the test of the code, which ignores letter case): when some
registration is compatible, `ExportObject` returns `true` and calls exactly one
exporter function, that of the compatible registration of lowest index, on the
asset, restoring `LastExported` afterwards; when none is compatible it returns
`false`, calls nothing and leaves the state and the asset as they are. With
two compatible registrations the first of the table is the one called,
whichever it is. -/
theorem ExportObject_dispatch (g : Globals) (exporters : List CExporterInfo) (Obj : UObject)
    (w : World) (hname : strnicmp Obj.Name "Default__".toList 9 ≠ 0) :
    ((∃ Info ∈ exporters, Obj.IsA Info.ClassName = true) →
      ∃ (i : Nat) (Info : CExporterInfo) (passed : UObject) (before : World),
        exporters[i]? = some Info ∧ Obj.IsA Info.ClassName = true ∧
        (∀ (j : Nat) (I : CExporterInfo), j < i → exporters[j]? = some I →
          Obj.IsA I.ClassName = false) ∧
        (ExportObject g exporters (some Obj) w).handled = true ∧
        (ExportObject g exporters (some Obj) w).invoked = [(i, passed)] ∧
        passed.addr = Obj.addr ∧
        (ExportObject g exporters (some Obj) w).world =
          { Info.Func passed before with
            ctx := { (Info.Func passed before).ctx with
              LastExported := before.ctx.LastExported } } ∧
        before.ctx = w.ctx ∧ before.fs = w.fs) ∧
    ((∀ Info ∈ exporters, Obj.IsA Info.ClassName = false) →
      ExportObject g exporters (some Obj) w =
        { handled := false, world := w, Obj := some Obj, invoked := [] }) ∧
    (∀ A B : CExporterInfo, Obj.IsA A.ClassName = true → Obj.IsA B.ClassName = true →
      ∃ (passed : UObject) (before : World),
        (ExportObject g [A, B] (some Obj) w).invoked = [(0, passed)] ∧
        (ExportObject g [A, B] (some Obj) w).world =
          { A.Func passed before with
            ctx := { (A.Func passed before).ctx with
              LastExported := before.ctx.LastExported } } ∧
        (ExportObject g [B, A] (some Obj) w).invoked = [(0, passed)] ∧
        (ExportObject g [B, A] (some Obj) w).world =
          { B.Func passed before with
            ctx := { (B.Func passed before).ctx with
              LastExported := before.ctx.LastExported } }) := by
  refine ⟨fun hcompat => ?_, fun hnone => ?_, fun A B hA hB => ?_⟩
  · obtain ⟨i, Info, hi, hIsA, hfirst⟩ := exists_first_compatible Obj exporters hcompat
    have heq : ExportObject g exporters (some Obj) w =
        ExportObject.body g
          (match Obj.Package with
            | some p =>
              g.GUncook && decide (p.Game ≥ g.GAME_UE3) && decide (p.Game < g.GAME_UE4_BASE)
            | none => false) Obj w (0 + i) Info := by
      simp only [ExportObject, if_neg hname]
      exact ExportObject_loop_first g _ Obj w exporters 0 i Info hi hIsA hfirst
    rw [Nat.zero_add] at heq
    obtain ⟨h1, _, passed, before, h2, h3, h4, h5, h6⟩ := ExportObject_body_spec g
      (match Obj.Package with
        | some p =>
          g.GUncook && decide (p.Game ≥ g.GAME_UE3) && decide (p.Game < g.GAME_UE4_BASE)
        | none => false) Obj w i Info
    rw [← heq] at h1 h2 h4
    exact ⟨i, Info, passed, before, hi, hIsA, hfirst, h1, h2, h3, h4, h5, h6⟩
  · simp only [ExportObject, if_neg hname]
    exact ExportObject_loop_none g _ Obj w exporters 0 hnone
  · have hAB : ExportObject g [A, B] (some Obj) w =
        ExportObject.body g
          (match Obj.Package with
            | some p =>
              g.GUncook && decide (p.Game ≥ g.GAME_UE3) && decide (p.Game < g.GAME_UE4_BASE)
            | none => false) Obj w 0 A := by
      simp only [ExportObject, if_neg hname, ExportObject.loop, hA, ↓reduceIte]
    have hBA : ExportObject g [B, A] (some Obj) w =
        ExportObject.body g
          (match Obj.Package with
            | some p =>
              g.GUncook && decide (p.Game ≥ g.GAME_UE3) && decide (p.Game < g.GAME_UE4_BASE)
            | none => false) Obj w 0 B := by
      simp only [ExportObject, if_neg hname, ExportObject.loop, hB, ↓reduceIte]
    rw [hAB, hBA]
    exact ⟨_, _, rfl, rfl, rfl, rfl⟩

/-- Witness of C6 on the skeletal mesh `objSkel`, compatible with both
registrations: with the table `[infoSkel, infoObject]` the exporter of
`infoSkel` runs and its archive is opened, with `[infoObject, infoSkel]` that
of `infoObject`; with an empty table nothing happens. -/
theorem ExportObject_dispatch_witness :
    (∃ (passed : UObject) (before : World),
      (ExportObject sampleGlobals [infoSkel, infoObject] (some objSkel) world0).invoked
        = [(0, passed)] ∧
      (ExportObject sampleGlobals [infoSkel, infoObject] (some objSkel) world0).world =
        { infoSkel.Func passed before with
          ctx := { (infoSkel.Func passed before).ctx with
            LastExported := before.ctx.LastExported } } ∧
      (ExportObject sampleGlobals [infoObject, infoSkel] (some objSkel) world0).invoked
        = [(0, passed)] ∧
      (ExportObject sampleGlobals [infoObject, infoSkel] (some objSkel) world0).world =
        { infoObject.Func passed before with
          ctx := { (infoObject.Func passed before).ctx with
            LastExported := before.ctx.LastExported } }) ∧
    ((ExportObject sampleGlobals [infoSkel, infoObject] (some objSkel) world0).world.fs.opened
        = ["/out/A/SkeletalMesh/Hero.psk".toList] ∧
      (ExportObject sampleGlobals [infoObject, infoSkel] (some objSkel) world0).world.fs.opened
        = ["/out/A/SkeletalMesh/Hero.txt".toList]) ∧
    ExportObject sampleGlobals [] (some objSkel) world0 =
      { handled := false, world := world0, Obj := some objSkel, invoked := [] } ∧
    ∃ (i : Nat) (Info : CExporterInfo),
      [infoSkel, infoObject][i]? = some Info ∧
      (ExportObject sampleGlobals [infoSkel, infoObject] (some objSkel) world0).handled = true ∧
      (ExportObject sampleGlobals [infoSkel, infoObject] (some objSkel) world0).invoked.map
        Prod.fst = [i] := by
  have h := ExportObject_dispatch sampleGlobals [infoSkel, infoObject] objSkel world0 (by decide)
  have h0 := ExportObject_dispatch sampleGlobals [] objSkel world0 (by decide)
  refine ⟨h.2.2 infoSkel infoObject (by decide) (by decide), ⟨by decide, by decide⟩,
    h0.2.1 (fun Info hInfo => absurd hInfo (List.not_mem_nil Info)), ?_⟩
  obtain ⟨i, Info, passed, before, hi, _, _, hhandled, hinv, _⟩ :=
    h.1 ⟨infoSkel, List.mem_cons_self _ _, by decide⟩
  exact ⟨i, Info, hi, hhandled, by rw [hinv]; rfl⟩

theorem toLower_eq_slash {c : Char} (h : c.toLower = '/') : c = '/' := by
  unfold Char.toLower at h
  simp only at h
  split at h
  · exfalso
    have h2 : (Char.ofNat (c.toNat + 32)).toNat = 47 := by rw [h]; rfl
    have hv : (c.toNat + 32).isValidChar := by
      left; omega
    rw [Char.ofNat, dif_pos hv] at h2
    change c.toNat + 32 = 47 at h2
    omega
  · exact h

/-- The routine `strnicmp` returns zero exactly when the first `n` characters
of the two strings agree after `tolower`. -/
theorem strnicmp_eq_zero_iff : ∀ (n : Nat) (a b : CStr),
    strnicmp a b n = 0 ↔ (a.take n).map Char.toLower = (b.take n).map Char.toLower
  | 0, a, b => by simp [strnicmp]
  | n + 1, [], [] => by simp [strnicmp]
  | n + 1, [], y :: ys => by simp [strnicmp]
  | n + 1, x :: xs, [] => by simp [strnicmp]
  | n + 1, x :: xs, y :: ys => by
    simp only [strnicmp, List.take_succ_cons, List.map_cons, List.cons.injEq]
    by_cases hxy : x.toLower = y.toLower
    · rw [if_pos hxy, strnicmp_eq_zero_iff n xs ys]
      exact ⟨fun h => ⟨hxy, h⟩, fun h => h.2⟩
    · rw [if_neg hxy]
      constructor
      · intro h
        split at h <;> omega
      · intro h
        exact absurd h.1 hxy

theorem strnicmp_self (a : CStr) (n : Nat) : strnicmp a a n = 0 :=
  (strnicmp_eq_zero_iff n a a).mpr rfl

theorem strchr_append {s : CStr} {c : Char} (t : CStr) (h : c ∉ s) :
    strchr (s ++ c :: t) c = some (c :: t) := by
  induction s with
  | nil => simp [strchr]
  | cons x xs ih =>
    have hx : x ≠ c := fun e => h (by simp [e])
    have hxs : c ∉ xs := fun e => h (List.mem_cons_of_mem _ e)
    simp only [List.cons_append, strchr, if_neg hx]
    exact ih hxs

theorem strchr_some {p : CStr} {c : Char} {r : CStr} (h : strchr p c = some r) :
    ∃ s t, p = s ++ c :: t ∧ c ∉ s ∧ r = c :: t := by
  induction p with
  | nil => simp [strchr] at h
  | cons x xs ih =>
    simp only [strchr] at h
    by_cases hx : x = c
    · rw [if_pos hx] at h
      cases h
      exact ⟨[], xs, by simp [hx], by simp, by simp [hx]⟩
    · rw [if_neg hx] at h
      obtain ⟨s, t, hp, hs, hr⟩ := ih h
      refine ⟨x :: s, t, by simp [hp], ?_, hr⟩
      intro hmem
      rcases List.mem_cons.mp hmem with e | e
      · exact hx e.symm
      · exact hs e

theorem strrchr_append {pre suf : CStr} {c : Char} (h : c ∉ suf) :
    strrchr (pre ++ c :: suf) c = some pre.length := by
  have hsuf : ∀ l : CStr, c ∉ l → strrchr l c = none := by
    intro l
    induction l with
    | nil => intro _; rfl
    | cons x xs ih =>
      intro hl
      have hx : x ≠ c := fun e => hl (by simp [e])
      have hxs : c ∉ xs := fun e => hl (List.mem_cons_of_mem _ e)
      simp [strrchr, ih hxs, hx]
  induction pre with
  | nil => simp [strrchr, hsuf suf h]
  | cons x xs ih => simp [strrchr, ih]

theorem cutAtLast_append {pre suf : CStr} {c : Char} (h : c ∉ suf) :
    cutAtLast (pre ++ c :: suf) c = pre := by
  unfold cutAtLast
  rw [strrchr_append h]
  simp

/-- A first path segment that is not `content` after `tolower` does not
compare equal to `Content/`. -/
theorem segment_lower_eq : ∀ (t s rest : CStr), '/' ∉ s → '/' ∉ t →
    ((s ++ '/' :: rest).take (t.length + 1)).map Char.toLower = t ++ ['/'] →
    s.map Char.toLower = t
  | [], [], _, _, _, _ => rfl
  | [], a :: s, rest, hs, _, h => by
    simp only [List.length_nil, Nat.zero_add, List.cons_append, List.take_succ_cons,
      List.take_zero, List.map_cons, List.map_nil, List.nil_append, List.cons.injEq,
      and_true] at h
    exact absurd (toLower_eq_slash h) (fun e => hs (by simp [e]))
  | b :: t, [], rest, _, ht, h => by
    simp only [List.length_cons, List.nil_append, List.take_succ_cons, List.map_cons,
      List.cons_append, List.cons.injEq] at h
    have hb : b = '/' := by rw [← h.1]; decide
    exact absurd hb (fun e => ht (by simp [e]))
  | b :: t, a :: s, rest, hs, ht, h => by
    simp only [List.length_cons, List.cons_append, List.take_succ_cons, List.map_cons,
      List.cons.injEq] at h
    have ih := segment_lower_eq t s rest (fun e => hs (List.mem_cons_of_mem _ e))
      (fun e => ht (List.mem_cons_of_mem _ e)) h.2
    simp [h.1, ih]

theorem strnicmp_segment_ne {s : CStr} (rest : CStr) (hs : '/' ∉ s)
    (hne : s.map Char.toLower ≠ "content".toList) :
    strnicmp (s ++ '/' :: rest) "Content/".toList 8 ≠ 0 := by
  intro h
  rw [strnicmp_eq_zero_iff] at h
  exact hne (segment_lower_eq "content".toList s rest hs (by decide) h)

theorem strnicmp_content (c r : CStr) (hlen : c.length = 8)
    (hc : c.map Char.toLower = "content/".toList) :
    strnicmp (c ++ r) "Content/".toList 8 = 0 := by
  rw [strnicmp_eq_zero_iff]
  have htake : (c ++ r).take 8 = c := by
    rw [← hlen, List.take_left]
  rw [htake, hc]
  decide

theorem strnicmp_not_content {p : CStr}
    (h : ∀ c r : CStr, p = c ++ r → c.length = 8 → c.map Char.toLower ≠ "content/".toList) :
    strnicmp p "Content/".toList 8 ≠ 0 := by
  intro h0
  rw [strnicmp_eq_zero_iff] at h0
  have h1 : (p.take 8).map Char.toLower = "content/".toList := by
    rw [h0]; decide
  have hlen : (p.take 8).length = 8 := by
    have := congrArg List.length h1
    simpa using this
  exact h (p.take 8) (p.drop 8) (List.take_append_drop 8 p).symm hlen h1

/-! ## Properties of `GetExportPath` -/

theorem GetExportPath_legacy (g : Globals) (base : CStr) (Obj : UObject)
    (hgen : ∀ p, Obj.Package = some p → p.Game < g.GAME_UE4_BASE) :
    (GetExportPath g base Obj).1 =
      (if base = [] then ".".toList else base) ++ "/".toList ++
        (match Obj.Package with
          | some p => if g.GUncook then Obj.UncookedPackageName else p.Name
          | none => "None".toList) ++
        (if (if g.GUseGroups then dotsToSlashes (Obj.FullName false (!g.GUncook))
              else Obj.ClassName) = [] then [] else "/".toList) ++
        (if g.GUseGroups then dotsToSlashes (Obj.FullName false (!g.GUncook))
          else Obj.ClassName) := by
  unfold GetExportPath
  rcases hp : Obj.Package with _ | p
  · rfl
  · have hlt : ¬ p.Game ≥ g.GAME_UE4_BASE := not_le.mpr (hgen p hp)
    simp only [if_neg hlt]

theorem GetExportPath_ue4 (g : Globals) (base : CStr) (Obj : UObject) (p : UnPackage)
    (hp : Obj.Package = some p) (hgen : p.Game ≥ g.GAME_UE4_BASE) :
    (GetExportPath g base Obj).1 =
      cutAtLast ((if base = [] then ".".toList else base) ++ "/".toList ++
          skipContentRoot (skipLeadingSlash p.Filename))
        (if nameMatchesPackage Obj.Name p.Name then '/' else '.') := by
  unfold GetExportPath
  simp only [hp, if_pos hgen]
  split <;> rfl

/-- C7. For an asset resolved by the earlier-generation branch (no package, or
a package below `GAME_UE4_BASE`) with `GUseGroups` off, `GetExportPath` returns
base, `/`, the package name component, and `/` with the class name unless the
class name is empty. The base is `BaseExportDir`, or `.` when that is empty;
the package name component is the uncooked package name under `GUncook`, the
name of the package otherwise, and `None` without package. -/
theorem GetExportPath_flat (g : Globals) (base : CStr) (Obj : UObject)
    (hgen : ∀ p, Obj.Package = some p → p.Game < g.GAME_UE4_BASE)
    (hflat : g.GUseGroups = false) :
    (GetExportPath g base Obj).1 =
      (if base = [] then ".".toList else base) ++ "/".toList ++
        (match Obj.Package with
          | some p => if g.GUncook then Obj.UncookedPackageName else p.Name
          | none => "None".toList) ++
        (if Obj.ClassName = [] then [] else "/".toList ++ Obj.ClassName) := by
  rw [GetExportPath_legacy g base Obj hgen]
  simp only [hflat, Bool.false_eq_true, if_false]
  by_cases hc : Obj.ClassName = []
  · simp [hc]
  · simp [hc]

/-- Witness of C7: base `/out`, package `Foo`, class `Mesh` give `/out/Foo/Mesh`. -/
theorem GetExportPath_flat_witness :
    (GetExportPath sampleGlobals "/out".toList objFoo).1 = "/out/Foo/Mesh".toList :=
  (GetExportPath_flat sampleGlobals "/out".toList objFoo
    (fun p hp => by cases hp; decide) rfl).trans (by decide)

/-- C8, counterexample. With `GUseGroups` on, base `/out`, package `Foo` and a
full name accessor that returns `Foo.Bar.Baz`, `GetExportPath` returns
`/out/Foo/Foo/Bar/Baz`, not `/out/Foo/Bar/Baz`. -/
theorem GetExportPath_grouped_counterexample :
    pkgFoo.Name = "Foo".toList ∧
    (objFooNamed "Foo.Bar.Baz").FullName false (!groupGlobals.GUncook) = "Foo.Bar.Baz".toList ∧
    ("Foo.Bar.Baz".toList).take pkgFoo.Name.length = pkgFoo.Name ∧
    (GetExportPath groupGlobals "/out".toList (objFooNamed "Foo.Bar.Baz")).1
      = "/out/Foo/Foo/Bar/Baz".toList ∧
    (GetExportPath groupGlobals "/out".toList (objFooNamed "Foo.Bar.Baz")).1
      ≠ "/out".toList ++ "/".toList ++ dotsToSlashes "Foo.Bar.Baz".toList := by
  decide

/-- C8, as amended. For an asset resolved by the earlier-generation branch with
`GUseGroups` on, `GetExportPath` returns base, `/`, the package name component
of C7, and then `/` and the text `Q` of the full name accessor (called without
the object name, with the cooked package name unless `GUncook`) with every `.`
replaced by `/`, unless `Q` is empty. The package name component is always put
in front of the group, whatever `Q` starts with. -/
theorem GetExportPath_grouped (g : Globals) (base : CStr) (Obj : UObject)
    (hgen : ∀ p, Obj.Package = some p → p.Game < g.GAME_UE4_BASE)
    (hgrp : g.GUseGroups = true) :
    (GetExportPath g base Obj).1 =
      (if base = [] then ".".toList else base) ++ "/".toList ++
        (match Obj.Package with
          | some p => if g.GUncook then Obj.UncookedPackageName else p.Name
          | none => "None".toList) ++
        (if Obj.FullName false (!g.GUncook) = [] then []
          else "/".toList ++
            (Obj.FullName false (!g.GUncook)).map (fun c => if c = '.' then '/' else c)) := by
  rw [GetExportPath_legacy g base Obj hgen]
  simp only [hgrp, if_true, dotsToSlashes]
  by_cases hq : Obj.FullName false (!g.GUncook) = []
  · simp [hq]
  · simp [hq]

/-- Witness of the amended C8: an accessor that returns `Bar.Baz` for an asset
of package `Foo` gives `/out/Foo/Bar/Baz`. -/
theorem GetExportPath_grouped_witness :
    (GetExportPath groupGlobals "/out".toList (objFooNamed "Bar.Baz")).1
      = "/out/Foo/Bar/Baz".toList :=
  (GetExportPath_grouped groupGlobals "/out".toList (objFooNamed "Bar.Baz")
    (fun p hp => by cases hp; decide) rfl).trans (by decide)

theorem nameMatchesPackage_self (N : CStr) : nameMatchesPackage N N = true := by
  simp [nameMatchesPackage, strnicmp_self]

theorem skipContentRoot_segment (s rest : CStr) (hs : '/' ∉ s)
    (hne : s.map Char.toLower ≠ "content".toList) (c : CStr) (hlen : c.length = 8)
    (hc : c.map Char.toLower = "content/".toList) :
    skipContentRoot (s ++ '/' :: (c ++ rest)) = rest := by
  unfold skipContentRoot
  have h1 : strnicmp (s ++ '/' :: (c ++ rest)) "Content/".toList 8 ≠ 0 :=
    strnicmp_segment_ne (c ++ rest) hs hne
  rw [if_neg h1, strchr_append (c ++ rest) hs]
  simp only [List.drop_succ_cons, List.drop_zero]
  rw [if_pos (strnicmp_content c rest hlen hc), ← hlen, List.drop_left]

/-- C9, counterexample. For the package file `/Game/Content/Meshes/Hero` and
the asset `Hero` of the package `Hero`, with base `/out`, `GetExportPath`
returns `/out/Meshes`, not `/out/Game/Meshes`. -/
theorem GetExportPath_ue4_primary_counterexample :
    pkgHero.Game ≥ sampleGlobals.GAME_UE4_BASE ∧
    pkgHero.Filename = "/Game/Content/Meshes/Hero".toList ∧
    pkgHero.Name = "Hero".toList ∧ objHero.Name = "Hero".toList ∧
    (GetExportPath sampleGlobals "/out".toList objHero).1 = "/out/Meshes".toList ∧
    (GetExportPath sampleGlobals "/out".toList objHero).1 ≠ "/out/Game/Meshes".toList := by
  decide

/-- C9, as amended. For a later-generation asset whose package file is
`/Segment/Content/Dirs/File`, where `Segment` holds no `/` and is not itself
`Content` in any letter case and `File` holds no `/`, and whose name is the
name of the package, `GetExportPath` returns base, `/` and `Dirs`: the leading
segment is removed together with `Content`, and so is the trailing segment. -/
theorem GetExportPath_ue4_primary (g : Globals) (base : CStr) (Obj : UObject) (p : UnPackage)
    (Segment Dirs File : CStr)
    (hp : Obj.Package = some p) (hgen : p.Game ≥ g.GAME_UE4_BASE)
    (hfile : p.Filename = '/' :: (Segment ++ "/Content/".toList ++ Dirs ++ '/' :: File))
    (hseg : '/' ∉ Segment) (hseg2 : Segment.map Char.toLower ≠ "content".toList)
    (hlast : '/' ∉ File) (hname : Obj.Name = p.Name) :
    (GetExportPath g base Obj).1 =
      (if base = [] then ".".toList else base) ++ "/".toList ++ Dirs := by
  rw [GetExportPath_ue4 g base Obj p hp hgen, hname, nameMatchesPackage_self, if_pos rfl, hfile]
  have hstrip : skipContentRoot (skipLeadingSlash
      ('/' :: (Segment ++ "/Content/".toList ++ Dirs ++ '/' :: File))) = Dirs ++ '/' :: File := by
    have h := skipContentRoot_segment Segment (Dirs ++ '/' :: File) hseg hseg2
      "Content/".toList (by decide) (by decide)
    simpa [skipLeadingSlash] using h
  rw [hstrip, ← List.append_assoc]
  exact cutAtLast_append hlast

/-- Witness of the amended C9: `/Game/Content/Meshes/Hero` gives `/out/Meshes`. -/
theorem GetExportPath_ue4_primary_witness :
    (GetExportPath sampleGlobals "/out".toList objHero).1 = "/out/Meshes".toList :=
  (GetExportPath_ue4_primary sampleGlobals "/out".toList objHero pkgHero
    "Game".toList "Meshes".toList "Hero".toList rfl (by decide) (by decide) (by decide)
    (by decide) (by decide) (by decide)).trans (by decide)

/-- C10. What `GetExportPath` appends to base and `/` for a later-generation
asset, before the trailing segment is cut, is `skipContentRoot` of the package
file path without one leading `/`. On a path `p`, `skipContentRoot` returns:
`r` when `p` is `Content/` (in any letter case) followed by `r`; otherwise `r`
when `p` is a segment without `/`, a `/`, `Content/` (in any letter case) and
`r`; otherwise `p` itself. In particular a path with two leading segments,
neither of them `Content`, is returned as it is, whatever follows. -/
theorem skipContentRoot_spec :
    (∀ c r : CStr, c.length = 8 → c.map Char.toLower = "content/".toList →
      skipContentRoot (c ++ r) = r) ∧
    (∀ s c r : CStr, '/' ∉ s → c.length = 8 → c.map Char.toLower = "content/".toList →
      (∀ c0 r0 : CStr, s ++ '/' :: (c ++ r) = c0 ++ r0 → c0.length = 8 →
        c0.map Char.toLower ≠ "content/".toList) →
      skipContentRoot (s ++ '/' :: (c ++ r)) = r) ∧
    (∀ p : CStr,
      (∀ c r : CStr, p = c ++ r → c.length = 8 → c.map Char.toLower ≠ "content/".toList) →
      (∀ s c r : CStr, p = s ++ '/' :: (c ++ r) → '/' ∉ s → c.length = 8 →
        c.map Char.toLower ≠ "content/".toList) →
      skipContentRoot p = p) ∧
    (∀ s1 s2 rest : CStr, '/' ∉ s1 → '/' ∉ s2 →
      s1.map Char.toLower ≠ "content".toList → s2.map Char.toLower ≠ "content".toList →
      skipContentRoot (s1 ++ '/' :: (s2 ++ '/' :: rest)) = s1 ++ '/' :: (s2 ++ '/' :: rest)) ∧
    (∀ (g : Globals) (base : CStr) (Obj : UObject) (p : UnPackage),
      Obj.Package = some p → p.Game ≥ g.GAME_UE4_BASE →
      (GetExportPath g base Obj).1 =
        cutAtLast ((if base = [] then ".".toList else base) ++ "/".toList ++
            skipContentRoot (skipLeadingSlash p.Filename))
          (if nameMatchesPackage Obj.Name p.Name then '/' else '.')) := by
  refine ⟨fun c r hlen hc => ?_, fun s c r hs hlen hc hfirst => ?_, fun p h1 h2 => ?_,
    fun s1 s2 rest hs1 hs2 hn1 hn2 => ?_, GetExportPath_ue4⟩
  · unfold skipContentRoot
    rw [if_pos (strnicmp_content c r hlen hc), ← hlen, List.drop_left]
  · unfold skipContentRoot
    rw [if_neg (strnicmp_not_content hfirst), strchr_append (c ++ r) hs]
    simp only [List.drop_succ_cons, List.drop_zero]
    rw [if_pos (strnicmp_content c r hlen hc), ← hlen, List.drop_left]
  · unfold skipContentRoot
    rw [if_neg (strnicmp_not_content h1)]
    rcases hchr : strchr p '/' with _ | s'
    · rfl
    · obtain ⟨s, t, hp, hs, hs'⟩ := strchr_some hchr
      subst hs'
      simp only [List.drop_succ_cons, List.drop_zero]
      rw [if_neg]
      apply strnicmp_not_content
      intro c r ht hlen
      exact h2 s c r (by rw [hp, ht]) hs hlen
  · unfold skipContentRoot
    rw [if_neg (strnicmp_segment_ne _ hs1 hn1), strchr_append _ hs1]
    simp only [List.drop_succ_cons, List.drop_zero]
    rw [if_neg (strnicmp_segment_ne _ hs2 hn2)]

/-- Witness of C10: `Content/Maps/City` and `Game/content/Maps/City` give
`Maps/City`; `Game/Maps/City` and `Mods/Game/Content/City` stay as they are. -/
theorem skipContentRoot_spec_witness :
    skipContentRoot ("Content/".toList ++ "Maps/City".toList) = "Maps/City".toList ∧
    skipContentRoot ("Game".toList ++ '/' :: ("content/".toList ++ "Maps/City".toList))
      = "Maps/City".toList ∧
    skipContentRoot "Game/Maps/City".toList = "Game/Maps/City".toList ∧
    skipContentRoot ("Mods".toList ++ '/' :: ("Game".toList ++ '/' :: "Content/City".toList))
      = "Mods".toList ++ '/' :: ("Game".toList ++ '/' :: "Content/City".toList) ∧
    (GetExportPath sampleGlobals "/out".toList objHero).1 =
      cutAtLast ("/out".toList ++ "/".toList ++
          skipContentRoot (skipLeadingSlash pkgHero.Filename))
        (if nameMatchesPackage objHero.Name pkgHero.Name then '/' else '.') := by
  refine ⟨skipContentRoot_spec.1 _ _ (by decide) (by decide),
    skipContentRoot_spec.2.1 _ _ _ (by decide) (by decide) (by decide) ?_,
    skipContentRoot_spec.2.2.1 _ ?_ ?_,
    skipContentRoot_spec.2.2.2.1 _ _ _ (by decide) (by decide) (by decide) (by decide),
    skipContentRoot_spec.2.2.2.2 sampleGlobals "/out".toList objHero pkgHero rfl (by decide)⟩
  · intro c0 r0 h hlen hc0
    have h8 := congrArg (List.take 8) h
    rw [← hlen, List.take_left, hlen] at h8
    rw [← h8] at hc0
    revert hc0
    decide
  · intro c r h hlen hc
    have h8 := congrArg (List.take 8) h
    rw [← hlen, List.take_left, hlen] at h8
    rw [← h8] at hc
    revert hc
    decide
  · intro s c r h hs hlen hc
    have hchr : strchr "Game/Maps/City".toList '/' = some ('/' :: (c ++ r)) := by
      rw [h]
      exact strchr_append (c ++ r) hs
    have hcr : c ++ r = "Maps/City".toList := by
      have h2 : strchr "Game/Maps/City".toList '/' = some "/Maps/City".toList := by decide
      rw [h2] at hchr
      simp only [Option.some.injEq] at hchr
      have h3 := congrArg List.tail hchr
      simpa using h3.symm
    have h8 := congrArg (List.take 8) hcr
    rw [← hlen, List.take_left, hlen] at h8
    rw [h8] at hc
    revert hc
    decide

theorem exists_last_split {l : CStr} {c : Char} (h : c ∈ l) :
    ∃ pre suf, l = pre ++ c :: suf ∧ c ∉ suf := by
  have hr : c ∈ l.reverse := List.mem_reverse.mpr h
  obtain ⟨as, bs, hsplit, hnot⟩ := List.eq_append_cons_of_mem hr
  refine ⟨bs.reverse, as.reverse, ?_, fun hmem => hnot (List.mem_reverse.mp hmem)⟩
  have h2 := congrArg List.reverse hsplit
  simpa using h2

/-- C11. For a later-generation asset whose name starts with the name of its
package, letter case ignored, and either ends there or goes on with `_`:
`GetExportPath` returns base, `/` and the stripped package path, cut at its last
`/`. In particular the asset named after the package with `_` and any suffix is
resolved exactly like the asset that carries the name of the package. -/
theorem GetExportPath_ue4_name_match (g : Globals) (base : CStr) (Obj : UObject)
    (p : UnPackage) (hp : Obj.Package = some p) (hgen : p.Game ≥ g.GAME_UE4_BASE) :
    ((Obj.Name.take p.Name.length).map Char.toLower = p.Name.map Char.toLower →
      (Obj.Name[p.Name.length]? = none ∨ Obj.Name[p.Name.length]? = some '_') →
      ∃ pre suf : CStr,
        (if base = [] then ".".toList else base) ++ "/".toList ++
          skipContentRoot (skipLeadingSlash p.Filename) = pre ++ '/' :: suf ∧
        '/' ∉ suf ∧ (GetExportPath g base Obj).1 = pre) ∧
    (∀ suffix : CStr,
      (GetExportPath g base { Obj with Name := p.Name ++ '_' :: suffix }).1 =
        (GetExportPath g base { Obj with Name := p.Name }).1) := by
  have hmatch : ∀ A : CStr,
      (A.take p.Name.length).map Char.toLower = p.Name.map Char.toLower →
      (A[p.Name.length]? = none ∨ A[p.Name.length]? = some '_') →
      nameMatchesPackage A p.Name = true := by
    intro A hpre hend
    have h0 : strnicmp A p.Name p.Name.length = 0 := by
      rw [strnicmp_eq_zero_iff, hpre, List.take_length]
    rcases hend with h | h <;> simp [nameMatchesPackage, h0, h]
  constructor
  · intro hpre hend
    have hmem : '/' ∈ (if base = [] then ".".toList else base) ++ "/".toList ++
        skipContentRoot (skipLeadingSlash p.Filename) := by
      simp
    obtain ⟨pre, suf, hsplit, hnot⟩ := exists_last_split hmem
    refine ⟨pre, suf, hsplit, hnot, ?_⟩
    rw [GetExportPath_ue4 g base Obj p hp hgen, hmatch Obj.Name hpre hend, if_pos rfl, hsplit]
    exact cutAtLast_append hnot
  · intro suffix
    rw [GetExportPath_ue4 g base { Obj with Name := p.Name ++ '_' :: suffix } p hp hgen,
      GetExportPath_ue4 g base { Obj with Name := p.Name } p hp hgen]
    have h1 : nameMatchesPackage (p.Name ++ '_' :: suffix) p.Name = true :=
      hmatch _ (by simp) (Or.inr (by rw [List.getElem?_append_right (Nat.le_refl _)]; simp))
    have h2 : nameMatchesPackage p.Name p.Name = true := nameMatchesPackage_self p.Name
    simp only [h1, h2]

/-- Witness of C11: the asset `Hero_LOD1` of the package `Hero` at
`/Game/Content/Meshes/Hero` is resolved to `/out/Meshes`, like `Hero` itself. -/
theorem GetExportPath_ue4_name_match_witness :
    (∃ pre suf : CStr,
      "/out".toList ++ "/".toList ++ skipContentRoot (skipLeadingSlash pkgHero.Filename)
        = pre ++ '/' :: suf ∧
      '/' ∉ suf ∧ (GetExportPath sampleGlobals "/out".toList objHeroLod).1 = pre) ∧
    (GetExportPath sampleGlobals "/out".toList objHeroLod).1 = "/out/Meshes".toList ∧
    (GetExportPath sampleGlobals "/out".toList objHero).1 = "/out/Meshes".toList :=
  ⟨(GetExportPath_ue4_name_match sampleGlobals "/out".toList objHeroLod pkgHero rfl
      (by decide)).1 (by decide) (by decide),
    by decide, by decide⟩

/-- C12, the defect. The asset `Other` of the package `Hero` does not carry the
name of the package, and the trailing segment `Hero` of the package path holds
no `.`. With `BaseExportDir` never set the buffer is `./Meshes/Hero` and the
cut at the last `.` leaves the empty path; with base `/out.v2` it leaves `/out`.
In both cases the path should have stayed as it was. -/
theorem GetExportPath_ue4_extension_defect :
    nameMatchesPackage objOther.Name pkgHero.Name = false ∧
    skipContentRoot (skipLeadingSlash pkgHero.Filename) = "Meshes/Hero".toList ∧
    '.' ∉ "Hero".toList ∧
    (GetExportPath sampleGlobals [] objOther).1 = [] ∧
    (GetExportPath sampleGlobals [] objOther).1 ≠ "./Meshes/Hero".toList ∧
    (GetExportPath sampleGlobals "/out.v2".toList objOther).1 = "/out".toList ∧
    (GetExportPath sampleGlobals "/out.v2".toList objOther).1 ≠ "/out.v2/Meshes/Hero".toList := by
  decide

/-! ## Properties of the name disambiguation -/

theorem RegisterName_count (items : List (CStr × Int)) (Name : CStr) :
    (RegisterName items Name).1 = countOf items Name + 1 := by
  induction items with
  | nil => rfl
  | cons V rest ih =>
    by_cases h : V.1 = Name
    · simp [RegisterName, countOf, h]
    · simp [RegisterName, countOf, h, ih]

theorem addUniqueSuffix_iff (g : Globals) (Obj : UObject) :
    addUniqueSuffix g Obj = true ↔ ActivePolicy g Obj := by
  unfold addUniqueSuffix ActivePolicy
  rcases hp : Obj.Package with _ | p
  · simp
  · simp only [Bool.and_eq_true, decide_eq_true_eq, Option.some.injEq, exists_eq_left', ge_iff_le]
    exact and_assoc

theorem bAddUniqueSuffix_active {g : Globals} {Obj : UObject} (h : ActivePolicy g Obj) :
    (match Obj.Package with
      | some p => g.GUncook && decide (p.Game ≥ g.GAME_UE3) && decide (p.Game < g.GAME_UE4_BASE)
      | none => false) = true :=
  (addUniqueSuffix_iff g Obj).mpr h

/-- The body of the loop of `ExportObject`, for every exporter function at
once: the asset as passed and the state in which the exporter function starts
depend on the call only. With `bAddUniqueSuffix` set the name is registered
before the exporter function runs, and the asset is passed under the name that
belongs to the returned count. -/
theorem ExportObject_body_uniform (g : Globals) (b : Bool) (Obj : UObject) (w : World) :
    ∃ (passed : UObject) (before : World),
      passed.addr = Obj.addr ∧ before.ctx = w.ctx ∧
      (b = true →
        passed.Name = suffixedName Obj.Name
          (countOf w.ExportedNames (candidateName g w.BaseExportDir Obj) + 1) ∧
        before.ExportedNames =
          (RegisterName w.ExportedNames (candidateName g w.BaseExportDir Obj)).2) ∧
      (b = false → passed = Obj ∧ before.ExportedNames = w.ExportedNames) ∧
      ∀ (i : Nat) (Info : CExporterInfo),
        ExportObject.body g b Obj w i Info =
          { handled := true
            world := { Info.Func passed before with
              ctx := { (Info.Func passed before).ctx with
                LastExported := before.ctx.LastExported } }
            Obj := some Obj
            invoked := [(i, passed)] } := by
  cases b with
  | false =>
    exact ⟨Obj, { w with BaseExportDir := (GetExportPath g w.BaseExportDir Obj).2 }, rfl, rfl,
      fun h => Bool.noConfusion h, fun _ => ⟨rfl, rfl⟩, fun _ _ => rfl⟩
  | true =>
    have hcount := RegisterName_count w.ExportedNames (candidateName g w.BaseExportDir Obj)
    by_cases hk : (RegisterName w.ExportedNames (candidateName g w.BaseExportDir Obj)).1 ≥ 2
    · refine ⟨{ Obj with Name := Obj.Name ++ "_".toList ++
          (toString (RegisterName w.ExportedNames
            (candidateName g w.BaseExportDir Obj)).1).toList },
        { w with
          BaseExportDir := (GetExportPath g w.BaseExportDir Obj).2
          ExportedNames := (RegisterName w.ExportedNames
            (candidateName g w.BaseExportDir Obj)).2
          log := LogLine.duplicateName Obj.Name Obj.ClassName (Obj.Name ++ "_".toList ++
            (toString (RegisterName w.ExportedNames
              (candidateName g w.BaseExportDir Obj)).1).toList) :: w.log },
        rfl, rfl, fun _ => ⟨?_, rfl⟩, fun h => Bool.noConfusion h, fun i Info => ?_⟩
      · rw [← hcount]
        unfold suffixedName
        rw [if_pos hk]
      · unfold candidateName at hk
        unfold ExportObject.body candidateName
        simp only [if_true, if_pos hk]
    · refine ⟨Obj,
        { w with
          BaseExportDir := (GetExportPath g w.BaseExportDir Obj).2
          ExportedNames := (RegisterName w.ExportedNames
            (candidateName g w.BaseExportDir Obj)).2 },
        rfl, rfl, fun _ => ⟨?_, rfl⟩, fun h => Bool.noConfusion h, fun i Info => ?_⟩
      · rw [← hcount]
        unfold suffixedName
        rw [if_neg hk]
      · unfold candidateName at hk
        unfold ExportObject.body candidateName
        simp only [if_true, if_neg hk]

/-- One call of `ExportObject` under the active policy, on an asset with a
compatible registration, whatever the exporter functions do: the first
compatible exporter function is called once, on the asset under the name that
belongs to the count stored for its candidate identity plus one, in a state
whose list of names has the candidate identity registered. -/
theorem ExportObject_active (g : Globals) (exporters : List CExporterInfo) (Obj : UObject)
    (w : World) (hname : strnicmp Obj.Name "Default__".toList 9 ≠ 0)
    (hcompat : ∃ Info ∈ exporters, Obj.IsA Info.ClassName = true)
    (hact : ActivePolicy g Obj) :
    ∃ (i : Nat) (Info : CExporterInfo) (passed : UObject) (before : World),
      exporters[i]? = some Info ∧
      (ExportObject g exporters (some Obj) w).invoked = [(i, passed)] ∧
      passed.addr = Obj.addr ∧
      passed.Name = suffixedName Obj.Name
        (countOf w.ExportedNames (candidateName g w.BaseExportDir Obj) + 1) ∧
      before.ExportedNames =
        (RegisterName w.ExportedNames (candidateName g w.BaseExportDir Obj)).2 ∧
      (ExportObject g exporters (some Obj) w).world =
        { Info.Func passed before with
          ctx := { (Info.Func passed before).ctx with
            LastExported := w.ctx.LastExported } } := by
  obtain ⟨i, Info, hi, hIsA, hfirst⟩ := exists_first_compatible Obj exporters hcompat
  have heq : ExportObject g exporters (some Obj) w = ExportObject.body g true Obj w i Info := by
    simp only [ExportObject, if_neg hname, bAddUniqueSuffix_active hact]
    rw [ExportObject_loop_first g true Obj w exporters 0 i Info hi hIsA hfirst, Nat.zero_add]
  obtain ⟨passed, before, haddr, hctx, htrue, _, hbody⟩ :=
    ExportObject_body_uniform g true Obj w
  refine ⟨i, Info, passed, before, hi, ?_, haddr, (htrue rfl).1, (htrue rfl).2, ?_⟩
  · rw [heq, hbody i Info]
  · rw [heq, hbody i Info, hctx]

/-- The loop of `ExportObject` on a table that registers one exporter function
for every class: either no class is compatible, or the body runs for the first
compatible class, the same one whatever the exporter function. -/
theorem ExportObject_loop_exportersOf (g : Globals) (b : Bool) (Obj : UObject) (w : World) :
    ∀ (classes : List CStr) (start : Nat),
      (∀ F, ExportObject.loop g b Obj w start (exportersOf classes F) =
        { handled := false, world := w, Obj := some Obj, invoked := [] }) ∨
      ∃ i c, ∀ F, ExportObject.loop g b Obj w start (exportersOf classes F) =
        ExportObject.body g b Obj w i { ClassName := c, Func := F }
  | [], _ => Or.inl fun _ => rfl
  | c :: rest, start => by
    by_cases hc : Obj.IsA c = true
    · refine Or.inr ⟨start, c, fun F => ?_⟩
      simp only [exportersOf, List.map_cons, ExportObject.loop, hc, if_true]
    · rcases ExportObject_loop_exportersOf g b Obj w rest (start + 1) with h | ⟨i, c', h⟩
      · refine Or.inl fun F => ?_
        simp only [exportersOf, List.map_cons, ExportObject.loop, hc]
        exact h F
      · refine Or.inr ⟨i, c', fun F => ?_⟩
        simp only [exportersOf, List.map_cons, ExportObject.loop, hc]
        exact h F

/-- One call of `ExportObject` on a table that registers one exporter function
for every class: either no exporter function is called and the state stays, or
one is called, on an asset and in a state that do not depend on the function. -/
theorem ExportObject_exportersOf (g : Globals) (classes : List CStr) (Obj : UObject)
    (w : World) :
    (∀ F, (ExportObject g (exportersOf classes F) (some Obj) w).invoked = [] ∧
      (ExportObject g (exportersOf classes F) (some Obj) w).world = w) ∨
    ∃ (i : Nat) (passed : UObject) (before : World),
      before.ctx = w.ctx ∧
      (addUniqueSuffix g Obj = true →
        passed.Name = suffixedName Obj.Name
          (countOf w.ExportedNames (candidateName g w.BaseExportDir Obj) + 1) ∧
        before.ExportedNames =
          (RegisterName w.ExportedNames (candidateName g w.BaseExportDir Obj)).2) ∧
      (addUniqueSuffix g Obj = false → passed = Obj ∧ before.ExportedNames = w.ExportedNames) ∧
      ∀ F, (ExportObject g (exportersOf classes F) (some Obj) w).invoked = [(i, passed)] ∧
        (ExportObject g (exportersOf classes F) (some Obj) w).world =
          { F passed before with
            ctx := { (F passed before).ctx with LastExported := before.ctx.LastExported } } := by
  by_cases hname : strnicmp Obj.Name "Default__".toList 9 = 0
  · refine Or.inl fun F => ?_
    have heq : ExportObject g (exportersOf classes F) (some Obj) w =
        { handled := true, world := w, Obj := some Obj, invoked := [] } := by
      simp only [ExportObject, if_pos hname]
    rw [heq]
    exact ⟨rfl, rfl⟩
  · have heq : ∀ F, ExportObject g (exportersOf classes F) (some Obj) w =
        ExportObject.loop g (addUniqueSuffix g Obj) Obj w 0 (exportersOf classes F) := by
      intro F
      simp only [ExportObject, if_neg hname, addUniqueSuffix]
    rcases ExportObject_loop_exportersOf g (addUniqueSuffix g Obj) Obj w classes 0 with
      h | ⟨i, c, h⟩
    · refine Or.inl fun F => ?_
      rw [heq F, h F]
      exact ⟨rfl, rfl⟩
    · obtain ⟨passed, before, _, hctx, htrue, hfalse, hbody⟩ :=
        ExportObject_body_uniform g (addUniqueSuffix g Obj) Obj w
      refine Or.inr ⟨i, passed, before, hctx, htrue, hfalse, fun F => ?_⟩
      rw [heq F, h F, hbody i { ClassName := c, Func := F }]
      exact ⟨rfl, rfl⟩

/-- The exporter function run by an `ExportObject` call starts in the state that
an exporter function without effect would leave, the state `Script.calls`
records; the call restores `LastExported` after it. -/
theorem ExportObject_entry_state (g : Globals) (classes : List CStr) (Obj : UObject)
    (w : World) (F : ExporterFunc_t) :
    ((ExportObject g (exportersOf classes F) (some Obj) w).invoked = [] ∧
      (ExportObject g (exportersOf classes F) (some Obj) w).world = w) ∨
    ∃ i passed,
      (ExportObject g (exportersOf classes F) (some Obj) w).invoked = [(i, passed)] ∧
      (ExportObject g (exportersOf classes F) (some Obj) w).world =
        { F passed (ExportObject g (exportersOf classes fun _ w => w) (some Obj) w).world with
          ctx := { (F passed
              (ExportObject g (exportersOf classes fun _ w => w) (some Obj) w).world).ctx with
            LastExported := w.ctx.LastExported } } := by
  rcases ExportObject_exportersOf g classes Obj w with hq | ⟨i, passed, before, hctx, _, _, hF⟩
  · exact Or.inl (hq F)
  · have hentry : (ExportObject g (exportersOf classes fun _ w => w) (some Obj) w).world =
        before := (hF fun _ w => w).2
    refine Or.inr ⟨i, passed, (hF F).1, ?_⟩
    rw [(hF F).2, hentry, hctx]

theorem RegisterProcessedObject_chained {ctx ctx' : ExportContext} {Obj : UObject} {r : Bool}
    (hc : ctx.Chained) (h : RegisterProcessedObject ctx Obj = some (r, ctx')) :
    ctx'.Chained := by
  unfold RegisterProcessedObject at h
  split at h
  · cases h
    exact hc
  · exact Chained_AddItem hc h

/-- In a session with well-formed chains a request of an archive returns, and
the chains stay well-formed. -/
theorem CreateExportArchive_chained (g : Globals) (w : World) (Obj : UObject)
    (FileOptions : Nat) (name : CStr) (hc : w.ctx.Chained) :
    ∃ r, CreateExportArchive g w Obj FileOptions name = some r ∧ r.2.ctx.Chained := by
  by_cases hlast : w.ctx.LastExported ≠ Obj.addr
  · obtain ⟨r, ctx', hreg⟩ := RegisterProcessedObject_total hc Obj
    have hc' := RegisterProcessedObject_chained hc hreg
    cases r
    · refine ⟨(none, { w with ctx := ctx' }), ?_, hc'⟩
      unfold CreateExportArchive
      rw [if_pos hlast, hreg]
    · obtain ⟨h1, h2, _⟩ := finish_session g
        { w with ctx := { ctx' with LastExported := Obj.addr } } Obj FileOptions name true
      have hc2 : ({ ctx' with LastExported := Obj.addr } : ExportContext).Chained :=
        @Chained_congr ctx' _ rfl rfl hc'
      refine ⟨CreateExportArchive.finish g
          { w with ctx := { ctx' with LastExported := Obj.addr } } Obj FileOptions name true,
        ?_, Chained_congr h1 h2 hc2⟩
      unfold CreateExportArchive
      rw [if_pos hlast, hreg]
  · obtain ⟨h1, h2, _⟩ := finish_session g w Obj FileOptions name false
    refine ⟨CreateExportArchive.finish g w Obj FileOptions name false, ?_,
      Chained_congr h1 h2 hc⟩
    unfold CreateExportArchive
    rw [if_neg hlast]

/-- A script run in a session with well-formed chains leaves the chains
well-formed; by `CreateExportArchive_chained` every request of an archive made
on the way returns. -/
theorem Script_run_chained (g : Globals) (classes : List CStr) :
    ∀ (S : Script) (self : UObject) (w : World), w.ctx.Chained →
      (Script.run g classes S self w).ctx.Chained
  | .done, _, _, hc => hc
  | .archive FileOptions name next, self, w, hc => by
    obtain ⟨r, hr, hc'⟩ := CreateExportArchive_chained g w self FileOptions (name self) hc
    simp only [Script.run, hr]
    exact Script_run_chained g classes next self r.2 hc'
  | .export Obj body next, self, w, hc => by
    simp only [Script.run]
    apply Script_run_chained g classes next self
    rcases ExportObject_exportersOf g classes Obj w with
      hq | ⟨i, passed, before, hctx, _, _, hF⟩
    · rw [(hq (Script.run g classes body)).2]
      exact hc
    · rw [(hF (Script.run g classes body)).2]
      exact @Chained_congr (Script.run g classes body passed before).ctx _ rfl rfl
        (Script_run_chained g classes body passed before (by rw [hctx]; exact hc))

/-- A run of `ExportObject` calls whose exporter functions make no call of
their own, written as a script: the calls recorded are the calls of exporter
functions that `runExports` lists, with the same assets passed. -/
theorem Script_calls_runExports (g : Globals) (classes : List CStr) (self : UObject) :
    ∀ (objs : List UObject) (w : World),
      (Script.calls g classes (Script.ofCalls (objs.map fun o => (o, Script.done)))
          self w).map (fun c => c.passed) =
        (runExports g (exportersOf classes fun _ w => w) w objs).1.map (fun x => x.2)
  | [], _ => rfl
  | o :: rest, w => by
    simp only [List.map_cons, Script.ofCalls, Script.calls, Script.run, runExports,
      List.map_append]
    rw [Script_calls_runExports g classes self rest]
    rcases ExportObject_exportersOf g classes o w with hq | ⟨i, passed, before, _, _, _, hF⟩
    · rw [(hq fun _ w => w).1]
      rfl
    · rw [(hF fun _ w => w).1]
      rfl

theorem ExportObject_loop_restores (g : Globals) (b : Bool) (Obj : UObject) (w : World) :
    ∀ (exporters : List CExporterInfo) (start : Nat),
      (ExportObject.loop g b Obj w start exporters).Obj = some Obj
  | [], _ => rfl
  | Info :: rest, start => by
    simp only [ExportObject.loop]
    split
    · exact ExportObject_body_restores g b Obj w start Info
    · exact ExportObject_loop_restores g b Obj w rest (start + 1)

/-- C15. For every asset (or `NULL`), table of exporters, settings and state,
the asset is after `ExportObject` what it was before the call, its name
included: on the `NULL` and `Default__` returns, when no exporter is found, and
when an exporter function was run, with or without a rename. An exporter
function works on the state only and cannot change the asset. In the sample run
the second texture `Tex` is passed to the exporter as `Tex_2` and is named `Tex`
again after the call. -/
theorem ExportObject_restores_name :
    (∀ (g : Globals) (exporters : List CExporterInfo) (Obj : Option UObject) (w : World),
      (ExportObject g exporters Obj w).Obj = Obj ∧
      ((ExportObject g exporters Obj w).Obj.map fun o => o.Name) = Obj.map fun o => o.Name) ∧
    ((ExportObject uncookGlobals textureExporters (some (sampleTexture 1024 "Tex"))
        (ExportObject uncookGlobals textureExporters (some (sampleTexture 512 "Tex"))
          world0).world).invoked.map (fun x => x.2.Name) = ["Tex_2".toList] ∧
      ((ExportObject uncookGlobals textureExporters (some (sampleTexture 1024 "Tex"))
        (ExportObject uncookGlobals textureExporters (some (sampleTexture 512 "Tex"))
          world0).world).Obj.map fun o => o.Name) = some "Tex".toList) := by
  have hmain : ∀ (g : Globals) (exporters : List CExporterInfo) (Obj : Option UObject)
      (w : World), (ExportObject g exporters Obj w).Obj = Obj := by
    intro g exporters Obj w
    cases Obj with
    | none => rfl
    | some o =>
      simp only [ExportObject]
      split
      · rfl
      · exact ExportObject_loop_restores g _ o w exporters 0
  exact ⟨fun g exporters Obj w => ⟨hmain g exporters Obj w, by rw [hmain]⟩,
    by decide, by decide⟩

/-- C14, counterexample. `Tex` is exported once, then `EndExport` is called:
the list of registered names still holds its entry, and the first export of
another `Tex` in the next session gets the count 2 and the name `Tex_2`. -/
theorem EndExport_names_counterexample :
    ((EndExport false 0
        (ExportObject uncookGlobals textureExporters (some (sampleTexture 512 "Tex"))
          world0).world).map fun w => w.ExportedNames)
      = some [("/out/Shared/Texture2D/Tex.Texture2D".toList, 1)] ∧
    ((EndExport false 0
        (ExportObject uncookGlobals textureExporters (some (sampleTexture 512 "Tex"))
          world0).world).map fun w =>
        (ExportObject uncookGlobals textureExporters (some (sampleTexture 1024 "Tex"))
          w).invoked.map fun x => x.2.Name)
      = some ["Tex_2".toList] := by
  decide

/-- C14, as amended. `EndExport` returns when `profile` is off or the start
time is set, and then leaves the list of registered names (and the base export
directory) as it is. So, whatever the exporter functions do, the first
`ExportObject` call of the next session on an asset under the active policy,
with a compatible exporter, gets from `RegisterName` the count stored before
`EndExport` plus one and runs the exporter function under the name that belongs
to that count: the name with `_` and the count when the stored count was 1 or
more, and the asset's own name only when no count was stored, that is when its
candidate identity was never registered. -/
theorem EndExport_keeps_names (profile : Bool) (now : Nat) (w : World) :
    ((profile = false ∨ w.ctx.startTime ≠ 0) → ∃ w', EndExport profile now w = some w') ∧
    ∀ w', EndExport profile now w = some w' →
      w'.ExportedNames = w.ExportedNames ∧ w'.BaseExportDir = w.BaseExportDir ∧
      ∀ (g : Globals) (exporters : List CExporterInfo) (Obj : UObject),
        strnicmp Obj.Name "Default__".toList 9 ≠ 0 →
        (∃ Info ∈ exporters, Obj.IsA Info.ClassName = true) →
        ActivePolicy g Obj →
        (RegisterName w'.ExportedNames (candidateName g w'.BaseExportDir Obj)).1 =
          countOf w.ExportedNames (candidateName g w.BaseExportDir Obj) + 1 ∧
        ∃ i passed, (ExportObject g exporters (some Obj) w').invoked = [(i, passed)] ∧
          passed.Name =
            if countOf w.ExportedNames (candidateName g w.BaseExportDir Obj) ≥ 1 then
              Obj.Name ++ "_".toList ++ (toString
                (countOf w.ExportedNames (candidateName g w.BaseExportDir Obj) + 1)).toList
            else Obj.Name := by
  have hkeep : ∀ w', EndExport profile now w = some w' →
      w'.ExportedNames = w.ExportedNames ∧ w'.BaseExportDir = w.BaseExportDir := by
    intro w' h
    unfold EndExport at h
    split at h
    · split at h
      · cases h
      · cases h
        exact ⟨rfl, rfl⟩
    · cases h
      exact ⟨rfl, rfl⟩
  constructor
  · intro hret
    unfold EndExport
    cases profile
    · exact ⟨_, rfl⟩
    · rcases hret with h | h
      · cases h
      · simp only [if_true, if_neg h]
        exact ⟨_, rfl⟩
  · intro w' h
    obtain ⟨hn, hb⟩ := hkeep w' h
    refine ⟨hn, hb, fun g exporters Obj hname hcompat hact => ⟨?_, ?_⟩⟩
    · rw [RegisterName_count, hn, hb]
    · obtain ⟨i, _, passed, _, _, hinv, _, hpn, _⟩ :=
        ExportObject_active g exporters Obj w' hname hcompat hact
      rw [hn, hb] at hpn
      refine ⟨i, passed, hinv, ?_⟩
      rw [hpn]
      unfold suffixedName
      by_cases hk : countOf w.ExportedNames (candidateName g w.BaseExportDir Obj) ≥ 1
      · rw [if_pos hk, if_pos (by omega)]
      · rw [if_neg hk, if_neg (by omega)]

/-- Witness of the amended C14 on the state left by one export of `Tex`. -/
theorem EndExport_keeps_names_witness :
    ∃ w', EndExport false 0
        (ExportObject uncookGlobals textureExporters (some (sampleTexture 512 "Tex"))
          world0).world = some w' ∧
      w'.ExportedNames = [("/out/Shared/Texture2D/Tex.Texture2D".toList, 1)] ∧
      (RegisterName w'.ExportedNames
        (candidateName uncookGlobals w'.BaseExportDir (sampleTexture 1024 "Tex"))).1 = 2 ∧
      ∃ i passed,
        (ExportObject uncookGlobals textureExporters (some (sampleTexture 1024 "Tex"))
          w').invoked = [(i, passed)] ∧
        passed.Name = "Tex_2".toList := by
  have h := EndExport_keeps_names false 0
    (ExportObject uncookGlobals textureExporters (some (sampleTexture 512 "Tex")) world0).world
  obtain ⟨w', hw'⟩ := h.1 (Or.inl rfl)
  obtain ⟨hn, _, hnext⟩ := h.2 w' hw'
  obtain ⟨hcount, i, passed, hinv, hpn⟩ := hnext uncookGlobals textureExporters
    (sampleTexture 1024 "Tex") (by decide) ⟨_, List.mem_cons_self _ _, by decide⟩
    ⟨rfl, _, rfl, by decide, by decide⟩
  exact ⟨w', hw', hn.trans (by decide), hcount.trans (by decide), i, passed, hinv,
    hpn.trans (by decide)⟩

/-- C20, the defect. Three textures resolved to one directory, named `Tex`,
`Tex` and `Tex_2`, are exported in one run under the active policy: the second
is passed to the exporter as `Tex_2`, and so is the third, which keeps its own
name, so the names passed are not pairwise distinct. With an exporter that
writes one file named after the asset, the second and the third call open the
same file. -/
theorem ExportObject_names_collide :
    (∀ o ∈ [sampleTexture 512 "Tex", sampleTexture 1024 "Tex", sampleTexture 2048 "Tex_2"],
      o.ClassName = "Texture2D".toList ∧
      (GetExportPath uncookGlobals "/out".toList o).1 = "/out/Shared/Texture2D".toList) ∧
    (runExports uncookGlobals textureExporters world0
        [sampleTexture 512 "Tex", sampleTexture 1024 "Tex", sampleTexture 2048 "Tex_2"]).1.map
      (fun x => x.2.Name) = ["Tex".toList, "Tex_2".toList, "Tex_2".toList] ∧
    ¬ ((runExports uncookGlobals textureExporters world0
        [sampleTexture 512 "Tex", sampleTexture 1024 "Tex", sampleTexture 2048 "Tex_2"]).1.map
      (fun x => x.2.Name)).Nodup ∧
    (Script.calls uncookGlobals sampleClasses collidingRun objA world0).map
      (fun c => (c.identity, c.passed.Name)) =
        [("/out/Shared/Texture2D/Tex.Texture2D".toList, "Tex".toList),
          ("/out/Shared/Texture2D/Tex.Texture2D".toList, "Tex_2".toList),
          ("/out/Shared/Texture2D/Tex_2.Texture2D".toList, "Tex_2".toList)] ∧
    (Script.run uncookGlobals sampleClasses collidingRun objA world0).fs.opened =
      ["/out/Shared/Texture2D/Tex_2.tga".toList, "/out/Shared/Texture2D/Tex_2.tga".toList,
        "/out/Shared/Texture2D/Tex.tga".toList] := by
  decide!

/-! ## Overwrite bookkeeping of `CreateExportArchive` -/

theorem RegisterProcessedObject_skipped {ctx ctx' : ExportContext} {Obj : UObject} {r : Bool}
    (h : RegisterProcessedObject ctx Obj = some (r, ctx')) :
    ctx'.NumSkippedObjects = ctx.NumSkippedObjects := by
  unfold RegisterProcessedObject at h
  split at h
  · cases h
    rfl
  · rcases AddItem_cases ctx Obj with ⟨_, h'⟩ | ⟨_, h'⟩ | ⟨_, h'⟩
    · rw [h'] at h; cases h
    · rw [h'] at h; cases h; rfl
    · rw [h'] at h; cases h; rfl

/-- The part of `CreateExportArchive` after the registration, when the file
name was formatted. -/
theorem finish_formatted (g : Globals) (w : World) (Obj : UObject) (FileOptions : Nat)
    (name : CStr) (bNew : Bool) (filename : CStr)
    (hfile : (GetExportFileName g w.BaseExportDir Obj name).1 = some filename) :
    (CreateExportArchive.finish g w Obj FileOptions name bNew).2.ctx.NumSkippedObjects =
      w.ctx.NumSkippedObjects +
        (if bNew = true ∧ g.GDontOverwriteFiles = true ∧ filename ∈ w.fs.files then 1 else 0) ∧
    (CreateExportArchive.finish g w Obj FileOptions name bNew).2.fs.madeDirs =
      filename :: w.fs.madeDirs ∧
    (CreateExportArchive.finish g w Obj FileOptions name bNew).2.fs.opened =
      filename :: w.fs.opened ∧
    ((CreateExportArchive.finish g w Obj FileOptions name bNew).1 =
      if filename ∈ w.fs.locked then none
      else some { filename := filename, FileOptions := FileOptions, ArVer := 128 }) := by
  unfold CreateExportArchive.finish
  simp only [hfile, FileSystem.appFileExists, FileSystem.appMakeDirectoryForFile,
    FileSystem.openWriter]
  by_cases hlock : filename ∈ w.fs.locked <;> by_cases hex : filename ∈ w.fs.files <;>
    cases bNew <;> cases hpol : g.GDontOverwriteFiles <;> simp [hlock, hex]

/-- C16. For a `CreateExportArchive` call that passes the check for duplicates
(it continues the asset exported last, or the registration returns `true`) and
whose file name is formatted: the call returns; `NumSkippedObjects` grows by
one exactly when `LastExported` was another object, `GDontOverwriteFiles` is on
and the destination exists, and is unchanged otherwise; in every case the
directory of the destination is made and a writer is opened on the destination,
and the archive returned is `NULL` exactly when that open fails. -/
theorem CreateExportArchive_skip_counter (g : Globals) (w : World) (Obj : UObject)
    (FileOptions : Nat) (name filename : CStr)
    (hpass : w.ctx.LastExported = Obj.addr ∨
      ∃ ctx', RegisterProcessedObject w.ctx Obj = some (true, ctx'))
    (hfile : (GetExportFileName g w.BaseExportDir Obj name).1 = some filename) :
    ∃ a w', CreateExportArchive g w Obj FileOptions name = some (a, w') ∧
      w'.ctx.NumSkippedObjects = w.ctx.NumSkippedObjects +
        (if w.ctx.LastExported ≠ Obj.addr ∧ g.GDontOverwriteFiles = true ∧
          filename ∈ w.fs.files then 1 else 0) ∧
      w'.fs.madeDirs = filename :: w.fs.madeDirs ∧
      w'.fs.opened = filename :: w.fs.opened ∧
      (a = if filename ∈ w.fs.locked then none
        else some { filename := filename, FileOptions := FileOptions, ArVer := 128 }) := by
  by_cases hlast : w.ctx.LastExported ≠ Obj.addr
  · rcases hpass with h | ⟨ctx', hreg⟩
    · exact absurd h hlast
    · obtain ⟨h1, h2, h3, h4⟩ := finish_formatted g
        { w with ctx := { ctx' with LastExported := Obj.addr } } Obj FileOptions name true
        filename hfile
      refine ⟨(CreateExportArchive.finish g
          { w with ctx := { ctx' with LastExported := Obj.addr } } Obj FileOptions name true).1,
        (CreateExportArchive.finish g
          { w with ctx := { ctx' with LastExported := Obj.addr } } Obj FileOptions name true).2,
        ?_, ?_, h2, h3, h4⟩
      · unfold CreateExportArchive
        rw [if_pos hlast, hreg]
      · rw [h1]
        simp only [RegisterProcessedObject_skipped hreg, true_and]
        by_cases hc : g.GDontOverwriteFiles = true ∧ filename ∈ w.fs.files
        · rw [if_pos hc, if_pos ⟨hlast, hc⟩]
        · rw [if_neg hc, if_neg (fun h => hc h.2)]
  · obtain ⟨h1, h2, h3, h4⟩ := finish_formatted g w Obj FileOptions name false filename hfile
    refine ⟨(CreateExportArchive.finish g w Obj FileOptions name false).1,
      (CreateExportArchive.finish g w Obj FileOptions name false).2, ?_, ?_, h2, h3, h4⟩
    · unfold CreateExportArchive
      rw [if_neg hlast]
    · rw [h1, if_neg (fun h => Bool.false_ne_true h.1), if_neg (fun h => hlast h.1)]

/-- Witness of C16: with `GDontOverwriteFiles` on and the destination of
`objGenerated` present, the first request counts one skipped object and still
opens the file; the second request of the same asset counts nothing. -/
theorem CreateExportArchive_skip_counter_witness :
    (∃ a w', CreateExportArchive keepGlobals worldFlags objGenerated 0 "Flags.mat".toList
        = some (a, w') ∧
      w'.ctx.NumSkippedObjects = 1 ∧
      w'.fs.opened = ["/out/None/MaterialWithPolyFlags/Flags.mat".toList] ∧
      a = some { filename := "/out/None/MaterialWithPolyFlags/Flags.mat".toList,
                 FileOptions := 0, ArVer := 128 }) ∧
    ∃ a w', CreateExportArchive keepGlobals
        { worldFlags with ctx := { worldFlags.ctx with LastExported := objGenerated.addr } }
        objGenerated 0 "Flags.mat".toList = some (a, w') ∧
      w'.ctx.NumSkippedObjects = 0 := by
  constructor
  · obtain ⟨a, w', h, h1, _, h3, h4⟩ := CreateExportArchive_skip_counter keepGlobals worldFlags
      objGenerated 0 "Flags.mat".toList "/out/None/MaterialWithPolyFlags/Flags.mat".toList
      (Or.inr ⟨worldFlags.ctx, rfl⟩) (by decide)
    exact ⟨a, w', h, h1.trans (by decide), h3, h4.trans (by decide)⟩
  · obtain ⟨a, w', h, h1, _⟩ := CreateExportArchive_skip_counter keepGlobals
      { worldFlags with ctx := { worldFlags.ctx with LastExported := objGenerated.addr } }
      objGenerated 0 "Flags.mat".toList "/out/None/MaterialWithPolyFlags/Flags.mat".toList
      (Or.inl rfl) (by decide)
    exact ⟨a, w', h, h1.trans (by decide)⟩

theorem finish_skipped_bounds (g : Globals) (w : World) (Obj : UObject) (FileOptions : Nat)
    (name : CStr) (bNew : Bool) :
    w.ctx.NumSkippedObjects ≤
      (CreateExportArchive.finish g w Obj FileOptions name bNew).2.ctx.NumSkippedObjects ∧
    (CreateExportArchive.finish g w Obj FileOptions name bNew).2.ctx.NumSkippedObjects ≤
      w.ctx.NumSkippedObjects + (if bNew = true then 1 else 0) := by
  rcases hfile : (GetExportFileName g w.BaseExportDir Obj name).1 with _ | filename
  · have hw : (CreateExportArchive.finish g w Obj FileOptions name bNew).2.ctx = w.ctx := by
      unfold CreateExportArchive.finish
      simp only [hfile]
    rw [hw]
    constructor
    · exact Int.le_refl _
    · split <;> omega
  · rw [(finish_formatted g w Obj FileOptions name bNew filename hfile).1]
    cases bNew
    · simp
    · by_cases hc : g.GDontOverwriteFiles = true ∧ filename ∈ w.fs.files
      · simp [hc]
      · have hc2 : ¬ (true = true ∧ g.GDontOverwriteFiles = true ∧ filename ∈ w.fs.files) :=
          fun h => hc h.2
        rw [if_neg hc2]
        simp

theorem AddItem_length {ctx ctx' : ExportContext} {Obj : UObject} {r : Bool}
    (h : ctx.AddItem Obj = some (r, ctx')) :
    ctx'.NumSkippedObjects = ctx.NumSkippedObjects ∧
    ctx'.Objects.length = ctx.Objects.length + (if r = true then 1 else 0) := by
  rcases AddItem_cases ctx Obj with ⟨_, h'⟩ | ⟨_, h'⟩ | ⟨_, h'⟩
  · rw [h'] at h; cases h
  · rw [h'] at h; cases h; exact ⟨rfl, rfl⟩
  · rw [h'] at h; cases h; exact ⟨rfl, by simp⟩

/-- One `CreateExportArchive` call on a keyable asset keeps the count of
skipped objects between zero and the number of recorded objects. -/
theorem CreateExportArchive_keyable_bound (g : Globals) (w : World) (Obj : UObject)
    (FileOptions : Nat) (name : CStr)
    (hkey : Obj.Package ≠ none ∧ 0 ≤ Obj.PackageIndex) (hc : w.ctx.Chained)
    (h0 : 0 ≤ w.ctx.NumSkippedObjects)
    (hle : w.ctx.NumSkippedObjects ≤ (w.ctx.Objects.length : Int)) :
    ∃ a w', CreateExportArchive g w Obj FileOptions name = some (a, w') ∧ w'.ctx.Chained ∧
      0 ≤ w'.ctx.NumSkippedObjects ∧
      w'.ctx.NumSkippedObjects ≤ (w'.ctx.Objects.length : Int) := by
  by_cases hlast : w.ctx.LastExported ≠ Obj.addr
  · have hreg : RegisterProcessedObject w.ctx Obj = w.ctx.AddItem Obj := by
      unfold RegisterProcessedObject
      rw [if_neg (by rintro (h | h); exact hkey.1 h; omega)]
    obtain ⟨r, ctx', hadd⟩ := AddItem_total hc Obj
    have hc' := Chained_AddItem hc hadd
    obtain ⟨hs, hl⟩ := AddItem_length hadd
    cases r
    · refine ⟨none, { w with ctx := ctx' }, ?_, hc', ?_, ?_⟩
      · unfold CreateExportArchive
        rw [if_pos hlast, hreg, hadd]
      · show 0 ≤ ctx'.NumSkippedObjects
        rw [hs]
        exact h0
      · show ctx'.NumSkippedObjects ≤ (ctx'.Objects.length : Int)
        rw [hs, hl]
        simpa using hle
    · obtain ⟨h1, h2, _⟩ := finish_session g
        { w with ctx := { ctx' with LastExported := Obj.addr } } Obj FileOptions name true
      obtain ⟨hb1, hb2⟩ := finish_skipped_bounds g
        { w with ctx := { ctx' with LastExported := Obj.addr } } Obj FileOptions name true
      have hc2 : ({ ctx' with LastExported := Obj.addr } : ExportContext).Chained :=
        @Chained_congr ctx' _ rfl rfl hc'
      have hcall : CreateExportArchive g w Obj FileOptions name = some
          (CreateExportArchive.finish g
            { w with ctx := { ctx' with LastExported := Obj.addr } } Obj FileOptions name true) := by
        unfold CreateExportArchive
        rw [if_pos hlast, hreg, hadd]
      generalize CreateExportArchive.finish g
        { w with ctx := { ctx' with LastExported := Obj.addr } } Obj FileOptions name true = F
        at h1 h2 hb1 hb2 hcall
      have e1 : ctx'.NumSkippedObjects ≤ F.2.ctx.NumSkippedObjects := hb1
      have e2 : F.2.ctx.NumSkippedObjects ≤ ctx'.NumSkippedObjects + 1 := hb2
      have e3 : F.2.ctx.Objects.length = ctx'.Objects.length := congrArg List.length h1
      have e4 : ctx'.Objects.length = w.ctx.Objects.length + 1 := hl
      refine ⟨F.1, F.2, hcall, Chained_congr h1 h2 hc2, ?_, ?_⟩
      · omega
      · rw [e3, e4]
        push_cast
        omega
  · obtain ⟨h1, h2, _⟩ := finish_session g w Obj FileOptions name false
    obtain ⟨hb1, hb2⟩ := finish_skipped_bounds g w Obj FileOptions name false
    refine ⟨(CreateExportArchive.finish g w Obj FileOptions name false).1,
      (CreateExportArchive.finish g w Obj FileOptions name false).2, ?_,
      Chained_congr h1 h2 hc, Int.le_trans h0 hb1, ?_⟩
    · unfold CreateExportArchive
      rw [if_neg hlast]
    · rw [h1]
      rw [if_neg Bool.false_ne_true, Int.add_zero] at hb2
      omega

/-- On keyable assets alone the count of skipped objects stays between zero
and the number of recorded objects, from `Reset` on. -/
theorem runArchiveCalls_keyable_bound (g : Globals) :
    ∀ (calls : List ArchiveCall) (w : World),
      (∀ c ∈ calls, c.Obj.Package ≠ none ∧ 0 ≤ c.Obj.PackageIndex) →
      w.ctx.Chained → 0 ≤ w.ctx.NumSkippedObjects →
      w.ctx.NumSkippedObjects ≤ (w.ctx.Objects.length : Int) →
      ∃ w', runArchiveCalls g w calls = some w' ∧ w'.ctx.Chained ∧
        0 ≤ w'.ctx.NumSkippedObjects ∧
        w'.ctx.NumSkippedObjects ≤ (w'.ctx.Objects.length : Int)
  | [], w, _, hc, h0, hle => ⟨w, rfl, hc, h0, hle⟩
  | c :: rest, w, hkey, hc, h0, hle => by
    obtain ⟨a, w1, h1, hc1, h01, hle1⟩ := CreateExportArchive_keyable_bound g w c.Obj
      c.FileOptions c.name (hkey c (List.mem_cons_self _ _)) hc h0 hle
    obtain ⟨w', hrun, hc', h0', hle'⟩ := runArchiveCalls_keyable_bound g rest w1
      (fun d hd => hkey d (List.mem_cons_of_mem _ hd)) hc1 h01 hle1
    exact ⟨w', by simp [runArchiveCalls, h1, hrun], hc', h0', hle'⟩

/-- C19, the defect. `objGenerated` has no package, `GDontOverwriteFiles` is on
and its destination exists: one `CreateExportArchive` call from a reset session
counts one skipped object while no object is recorded, and `EndExport` then
prints `-1` exported objects of `0`. -/
theorem skipped_exceeds_recorded :
    objGenerated.Package = none ∧
    ((runArchiveCalls keepGlobals { worldFlags with ctx := worldFlags.ctx.Reset }
        [callFlags]).map fun w => (w.ctx.NumSkippedObjects, w.ctx.Objects.length))
      = some (1, 0) ∧
    (((runArchiveCalls keepGlobals
        (BeginExport 5 { worldFlags with ctx := worldFlags.ctx.Reset }) [callFlags]).bind
        (EndExport true 9)).map fun w => w.log.head?)
      = some (some (LogLine.summary (-1) 0 4)) := by
  decide

/-! ## End of a session and shape of the chains -/

theorem ItemExists_Reset (ctx : ExportContext) (Obj : UObject) :
    ctx.Reset.ItemExists Obj = some false := by
  simp [ExportContext.ItemExists, ExportContext.Reset, ExportContext.walk]

theorem EndExport_ctx (profile : Bool) (now : Nat) (w w' : World)
    (h : EndExport profile now w = some w') :
    w'.ctx = ExportContext.Reset { w.ctx with startTime := 0 } := by
  unfold EndExport at h
  split at h
  · split at h
    · cases h
    · cases h
      rfl
  · cases h
    rfl

/-- C17. `EndExport` returns when `profile` is off or the start time is set
(with `profile` on and no start time its `assert` fails). After it returned,
whatever the session was: the list of exported objects is empty, every bucket
head is `-1`, `NumSkippedObjects` is `0`, `LastExported` is `NULL` and the start
time is `0`; so `ItemExists` returns `false` for every asset, `AddItem` returns
`true` for every asset and `RegisterProcessedObject` returns `true` for every
keyable one, recording it as the only entry. -/
theorem EndExport_resets (profile : Bool) (now : Nat) (w : World) :
    ((profile = false ∨ w.ctx.startTime ≠ 0) → ∃ w', EndExport profile now w = some w') ∧
    ∀ w', EndExport profile now w = some w' →
      w'.ctx.Objects = [] ∧
      (∀ h, h < EXPORTED_LIST_HASH_SIZE → w'.ctx.ObjectHash h = -1) ∧
      w'.ctx.NumSkippedObjects = 0 ∧ w'.ctx.LastExported = 0 ∧ w'.ctx.startTime = 0 ∧
      (∀ k : UObject, w'.ctx.ItemExists k = some false) ∧
      (∀ k : UObject, ∃ ctx'', w'.ctx.AddItem k = some (true, ctx'') ∧
        ctx''.Objects.length = 1) ∧
      (∀ k : UObject, k.Package ≠ none → 0 ≤ k.PackageIndex →
        ∃ ctx'', RegisterProcessedObject w'.ctx k = some (true, ctx'') ∧
          ctx''.Objects = [{ Package := k.PackagePtr, ExportIndex := k.PackageIndex,
                             HashNext := -1 }]) := by
  constructor
  · intro hret
    unfold EndExport
    cases profile
    · exact ⟨_, rfl⟩
    · rcases hret with h | h
      · cases h
      · simp only [if_true, if_neg h]
        exact ⟨_, rfl⟩
  · intro w' h
    have hctx := EndExport_ctx profile now w w' h
    have hex : ∀ k : UObject, w'.ctx.ItemExists k = some false := by
      intro k
      rw [hctx]
      exact ItemExists_Reset _ k
    have hadd : ∀ k : UObject, w'.ctx.AddItem k = some (true,
        { w'.ctx with
          Objects := w'.ctx.Objects ++
            [{ ExportedObjectEntry.ofObject k with
                HashNext := w'.ctx.ObjectHash (ExportedObjectEntry.ofObject k).GetHash }]
          ObjectHash := fun i =>
            if i = (ExportedObjectEntry.ofObject k).GetHash then (w'.ctx.Objects.length : Int)
            else w'.ctx.ObjectHash i }) := by
      intro k
      rcases AddItem_cases w'.ctx k with ⟨h1, _⟩ | ⟨h1, _⟩ | ⟨_, h2⟩
      · rw [hex k] at h1; cases h1
      · rw [hex k] at h1; cases h1
      · exact h2
    have hobj : w'.ctx.Objects = [] := by rw [hctx]; rfl
    have hhash : ∀ h, w'.ctx.ObjectHash h = -1 := by
      intro h
      rw [hctx]
      rfl
    refine ⟨hobj, fun h _ => hhash h, by rw [hctx]; rfl, by rw [hctx]; rfl,
      by rw [hctx]; rfl, hex, fun k => ⟨_, hadd k, by simp [hobj]⟩, fun k hk1 hk2 => ?_⟩
    have hreg : RegisterProcessedObject w'.ctx k = w'.ctx.AddItem k := by
      unfold RegisterProcessedObject
      rw [if_neg (by rintro (h | h); exact hk1 h; omega)]
    exact ⟨_, hreg.trans (hadd k), by simp [hobj, hhash, ExportedObjectEntry.ofObject]⟩

/-- Witness of C17: a session with `objA` recorded, ended with `profile` on
after `BeginExport`. -/
theorem EndExport_resets_witness :
    ∃ w', EndExport true 9 (BeginExport 5 worldWithA) = some w' ∧
      w'.ctx.Objects = [] ∧ w'.ctx.ObjectHash 1 = -1 ∧ w'.ctx.startTime = 0 ∧
      w'.ctx.ItemExists objA = some false ∧
      ∃ ctx'', RegisterProcessedObject w'.ctx objA = some (true, ctx'') ∧
        ctx''.Objects = [{ Package := 8, ExportIndex := 0, HashNext := -1 }] := by
  have h := EndExport_resets true 9 (BeginExport 5 worldWithA)
  obtain ⟨w', hw'⟩ := h.1 (Or.inr (by decide))
  obtain ⟨h1, h2, _, _, h5, h6, _, h8⟩ := h.2 w' hw'
  obtain ⟨ctx'', hreg, hobjs⟩ := h8 objA (by decide) (by decide)
  exact ⟨w', hw', h1, h2 1 (by decide), h5, h6 objA, ctx'', hreg, hobjs⟩

theorem bucketBelow_mem (Objects : List ExportedObjectEntry) (h : Nat) :
    ∀ (m i : Nat), i ∈ bucketBelow Objects h m ↔
      (i < m ∧ ∃ e, Objects[i]? = some e ∧ e.GetHash = h)
  | 0, i => by simp [bucketBelow]
  | m + 1, i => by
    have ih := bucketBelow_mem Objects h m i
    simp only [bucketBelow]
    rcases hm : Objects[m]? with _ | e
    · simp only [ih]
      constructor
      · rintro ⟨hlt, hex⟩
        exact ⟨Nat.lt_succ_of_lt hlt, hex⟩
      · rintro ⟨hlt, e, he, hh⟩
        refine ⟨?_, e, he, hh⟩
        rcases Nat.lt_succ_iff_lt_or_eq.mp hlt with h1 | h1
        · exact h1
        · subst h1
          rw [hm] at he
          cases he
    · simp only
      by_cases hh : e.GetHash = h
      · rw [if_pos hh, List.mem_cons, ih]
        constructor
        · rintro (rfl | ⟨hlt, hex⟩)
          · exact ⟨Nat.lt_succ_self _, e, hm, hh⟩
          · exact ⟨Nat.lt_succ_of_lt hlt, hex⟩
        · rintro ⟨hlt, hex⟩
          rcases Nat.lt_succ_iff_lt_or_eq.mp hlt with h1 | h1
          · exact Or.inr ⟨h1, hex⟩
          · exact Or.inl h1
      · rw [if_neg hh, ih]
        constructor
        · rintro ⟨hlt, hex⟩
          exact ⟨Nat.lt_succ_of_lt hlt, hex⟩
        · rintro ⟨hlt, e2, he2, hh2⟩
          refine ⟨?_, e2, he2, hh2⟩
          rcases Nat.lt_succ_iff_lt_or_eq.mp hlt with h1 | h1
          · exact h1
          · subst h1
            rw [hm] at he2
            cases he2
            exact absurd hh2 hh

theorem bucketBelow_decreasing (Objects : List ExportedObjectEntry) (h : Nat) :
    ∀ m : Nat, (bucketBelow Objects h m).Pairwise (fun a b => a > b)
  | 0 => by simp [bucketBelow]
  | m + 1 => by
    have ih := bucketBelow_decreasing Objects h m
    simp only [bucketBelow]
    split
    · split
      · rw [List.pairwise_cons]
        exact ⟨fun b hb => ((bucketBelow_mem Objects h m b).mp hb).1, ih⟩
      · exact ih
    · exact ih

theorem chainFrom_lastBefore (Objects : List ExportedObjectEntry) (h : Nat)
    (hnext : ∀ i e, Objects[i]? = some e → e.HashNext = lastBefore Objects e.GetHash i) :
    ∀ m, m ≤ Objects.length → ∀ fuel, m < fuel →
      chainFrom Objects fuel (lastBefore Objects h m) = some (bucketBelow Objects h m, -1)
  | 0, _, fuel, hf => by
    obtain ⟨f, rfl⟩ : ∃ f, fuel = f + 1 := ⟨fuel - 1, by omega⟩
    simp [lastBefore, chainFrom, bucketBelow]
  | m + 1, hm, fuel, hf => by
    obtain ⟨f, rfl⟩ : ∃ f, fuel = f + 1 := ⟨fuel - 1, by omega⟩
    have hlt : m < Objects.length := hm
    have hget : Objects[m]? = some Objects[m] := List.getElem?_eq_getElem hlt
    have ih := chainFrom_lastBefore Objects h hnext m (Nat.le_of_lt hlt)
    by_cases hh : Objects[m].GetHash = h
    · have hn := hnext m Objects[m] hget
      rw [hh] at hn
      have hrec := ih f (by omega)
      simp only [lastBefore, bucketBelow, hget, if_pos hh, chainFrom, Int.toNat_ofNat, hn, hrec]
      simp
    · simp only [lastBefore, bucketBelow, hget, if_neg hh]
      exact ih (f + 1) (by omega)

/-- C18. In the session reached from `Reset` by any sequence of `AddItem`
calls, for every bucket the walk from its head along `HashNext` returns: it
visits strictly decreasing indices, exactly the indices whose entry hashes to
that bucket, and ends at the link `-1`. So every index of the list is visited
exactly once by the walk of its own bucket and never by the walk of another
bucket, and `ItemExists` returns for every asset. -/
theorem chains_of_reachable (c0 : ExportContext) (added : List UObject) :
    ∃ ctx, c0.Reset.addItems added = some ctx ∧
      (∀ h : Nat, ∃ visited,
        chainFrom ctx.Objects (ctx.Objects.length + 1) (ctx.ObjectHash h) = some (visited, -1) ∧
        visited.Pairwise (fun a b => a > b) ∧
        (∀ i, i ∈ visited ↔ ∃ e, ctx.Objects[i]? = some e ∧ e.GetHash = h)) ∧
      (∀ (i : Nat) (e : ExportedObjectEntry), ctx.Objects[i]? = some e →
        (∃ visited,
          chainFrom ctx.Objects (ctx.Objects.length + 1) (ctx.ObjectHash e.GetHash)
            = some (visited, -1) ∧ visited.count i = 1) ∧
        ∀ (h : Nat) (visited : List Nat) (last : Int), h ≠ e.GetHash →
          chainFrom ctx.Objects (ctx.Objects.length + 1) (ctx.ObjectHash h)
            = some (visited, last) → i ∉ visited) ∧
      (∀ k : UObject, ∃ b, ctx.ItemExists k = some b) := by
  obtain ⟨ctx, hrun, hc, _⟩ := addItems_chained added c0.Reset (Chained_Reset c0)
  have hchain : ∀ h : Nat,
      chainFrom ctx.Objects (ctx.Objects.length + 1) (ctx.ObjectHash h) =
        some (bucketBelow ctx.Objects h ctx.Objects.length, -1) := by
    intro h
    rw [hc.head h]
    exact chainFrom_lastBefore ctx.Objects h hc.next ctx.Objects.length (Nat.le_refl _)
      (ctx.Objects.length + 1) (Nat.lt_succ_self _)
  have hmem : ∀ (h i : Nat), i ∈ bucketBelow ctx.Objects h ctx.Objects.length ↔
      ∃ e, ctx.Objects[i]? = some e ∧ e.GetHash = h := by
    intro h i
    rw [bucketBelow_mem]
    constructor
    · rintro ⟨_, hex⟩
      exact hex
    · rintro ⟨e, he, hh⟩
      refine ⟨?_, e, he, hh⟩
      by_contra hcon
      rw [List.getElem?_eq_none (Nat.le_of_not_lt hcon)] at he
      cases he
  refine ⟨ctx, hrun, fun h => ⟨_, hchain h, bucketBelow_decreasing _ _ _, hmem h⟩,
    fun i e he => ⟨⟨_, hchain e.GetHash, ?_⟩, fun h visited last hne hv => ?_⟩, fun k => ?_⟩
  · have hnodup : (bucketBelow ctx.Objects e.GetHash ctx.Objects.length).Nodup :=
      (bucketBelow_decreasing ctx.Objects e.GetHash ctx.Objects.length).imp
        (fun hab => Nat.ne_of_gt hab)
    exact List.count_eq_one_of_mem hnodup ((hmem e.GetHash i).mpr ⟨e, he, rfl⟩)
  · rw [hchain h] at hv
    cases hv
    intro hi
    obtain ⟨e2, he2, hh2⟩ := (hmem h i).mp hi
    rw [he] at he2
    cases he2
    exact hne hh2.symm
  · obtain ⟨b, hb, _⟩ := ItemExists_of_chained hc k
    exact ⟨b, hb⟩

/-- Witness of C18: after `objA`, `objB` (same bucket) and `objC` were added,
the walk of bucket 1 visits the indices 1 and 0, in this order. -/
theorem chains_of_reachable_witness :
    ∃ ctx, freshContext.Reset.addItems [objA, objB, objC] = some ctx ∧
      (chainFrom ctx.Objects (ctx.Objects.length + 1) (ctx.ObjectHash 1)).map Prod.fst
        = some [1, 0] ∧
      ∃ visited,
        chainFrom ctx.Objects (ctx.Objects.length + 1) (ctx.ObjectHash 1) = some (visited, -1) ∧
        visited.Pairwise (fun a b => a > b) := by
  obtain ⟨ctx, hrun, h1, _⟩ := chains_of_reachable freshContext [objA, objB, objC]
  obtain ⟨visited, hv, hp, _⟩ := h1 1
  refine ⟨ctx, hrun, ?_, visited, hv, hp⟩
  have hrun2 : freshContext.Reset.addItems [objA, objB, objC] = some
      { freshContext with
        Objects := [{ Package := 8, ExportIndex := 0, HashNext := -1 },
                    { Package := 32776, ExportIndex := 0, HashNext := 0 },
                    { Package := 8, ExportIndex := 5, HashNext := -1 }]
        ObjectHash := fun i => if i = (ExportedObjectEntry.ofObject objC).GetHash then 2
          else if i = 1 then 1 else if i = 1 then 0 else -1 } := by
    rfl
  rw [hrun2] at hrun
  cases hrun
  decide

end Exporters
